import Mathlib

/-!
Verification of a C heap allocator (the explicit-free-list allocator of
`explicit.c` and the implicit-free-list variant of `implicit.c`).

Pointers into the managed region are modelled as byte offsets from the start of
the heap segment: `segment_start` is offset `0` and `heap_end` is offset
`size`.  `NULL` is `Option.none`.  Each block keeps its header word (the
payload size together with the low status bits) in the `word` component of the
state; the two free-list link pointers that the C code stores in the first
bytes after a free block's header live in the `prev` / `next` components, and
the user-visible payload bytes in `data` (the link fields of the C code alias
the first sixteen payload bytes of a block; keeping them in separate
components is sound for the properties proved here because the allocator only
ever writes link fields of blocks that are on the free list, never into the
payload of a block owned by the caller).  Machine words are `Nat`; the one
place where 64-bit wrap-around is observable (`roundup`, which adds before
masking) reduces modulo `2 ^ 64` explicitly.
-/

/-- Modelled from the spec: `allocator.h` (not among the sources) fixes the
alignment unit at 8 bytes ("alignment unit (fixed at 8 bytes)").  Every
`ALIGNMENT` mentioned by the C sources is this constant. -/
def ALIGNMENT : Nat := 8

/-- Modelled from the spec: `allocator.h` (not among the sources) configures a
"maximum single-request size".  Its concrete value is irrelevant to every
claim settled here; we use the customary `2 ^ 30`. -/
def MAX_REQUEST_SIZE : Nat := 2 ^ 30

/-- Size of a 64-bit `size_t` value space. -/
def UINT64_LIMIT : Nat := 2 ^ 64

/-- `get_payload` of both sources: the header word with its three low status
bits masked off (`payload & PAYLOAD_MASK` where `PAYLOAD_MASK = ~7`; for a
64-bit word `w` this is `w - w % 8`). -/
def get_payload (w : Nat) : Nat := w - w % 8

/-- `roundup` of `explicit.c`: `(sz + mult - 1) & ~(mult - 1)` in `size_t`
arithmetic (the sum wraps at `2 ^ 64`; for the power of two `mult = 8` the
mask clears the low bits, i.e. subtracts the remainder), followed by an
explicit floor of 16 bytes. -/
def roundup (sz mult : Nat) : Nat :=
  let x := (sz + mult - 1) % UINT64_LIMIT
  let corrected := x - x % mult
  if corrected < 16 then 16 else corrected

/-- `roundup` of `implicit.c`: the same bit trick, with no floor. -/
def iroundup (sz mult : Nat) : Nat :=
  let x := (sz + mult - 1) % UINT64_LIMIT
  x - x % mult

/-- State of the explicit allocator: `segment_size` (`size`), the header word
at every offset (`word`), the free-list link fields at every offset
(`prev` / `next`), `freelist_start` (`fstart`) and the payload bytes
(`data`).  `segment_start` is offset 0 and `heap_end` is offset `size`. -/
structure EHeap where
  size : Nat
  word : Nat → Nat
  prev : Nat → Option Nat
  next : Nat → Option Nat
  fstart : Option Nat
  data : Nat → Nat

/-- A completely blank heap, used as the pre-state for initialisation in
concrete examples. -/
def emptyHeap : EHeap :=
  { size := 0, word := fun _ => 0, prev := fun _ => none, next := fun _ => none,
    fstart := none, data := fun _ => 0 }

/-- `myinit` of `explicit.c`: fails below `ALIGNMENT * 3` bytes, otherwise
creates a single free block spanning the region (header word
`heap_size - ALIGNMENT`, both links `NULL`) and points the free list at it.
`mem` is the arbitrary pre-existing contents of the managed memory. -/
def myinit (mem : EHeap) (heap_size : Nat) : Option EHeap :=
  if heap_size < ALIGNMENT * 3 then none
  else some
    { size := heap_size
      word := Function.update mem.word 0 (heap_size - ALIGNMENT)
      prev := Function.update mem.prev 0 none
      next := Function.update mem.next 0 none
      fstart := some 0
      data := mem.data }

/-- `check_free` of `explicit.c`: `false` for `NULL`, otherwise true iff the
three low bits of the header word are zero. -/
def check_free (s : EHeap) : Option Nat → Bool
  | none => false
  | some o => s.word o % 8 == 0

/-- Loop body of `search_freelist`, with explicit fuel (the C loop follows the
`next` links; in every well-formed state the free list is finite and the fuel
passed by `search_freelist` is more than its length). -/
def search_freelist_go (s : EHeap) (request : Nat) : Nat → Option Nat → Option Nat
  | 0, _ => none
  | _ + 1, none => none
  | fuel + 1, some curr =>
      if check_free s (some curr) = true ∧ request ≤ get_payload (s.word curr) then some curr
      else search_freelist_go s request fuel (s.next curr)

/-- `search_freelist` of `explicit.c`: first-fit scan of the free list. -/
def search_freelist (s : EHeap) (request : Nat) : Option Nat :=
  search_freelist_go s request (s.size + 1) s.fstart

/-- `remove_freelist` of `explicit.c`: unlink the block at offset `o` from the
doubly linked free list.  The C code copies the node's `prev` / `next` fields
first and then patches head / neighbours exactly as below. -/
def remove_freelist (s : EHeap) (o : Nat) : EHeap :=
  match s.prev o, s.next o with
  | none, none => { s with fstart := none }
  | none, some nf =>
      { s with fstart := some nf, prev := Function.update s.prev nf none }
  | some ph, nxt =>
      let s1 := match nxt with
        | some nh => { s with prev := Function.update s.prev nh (some ph) }
        | none => s
      { s1 with next := Function.update s1.next ph nxt }

/-- `get_next_block` of `explicit.c`: the block `payload + ALIGNMENT` bytes
further, or `NULL` when that lands exactly on `heap_end`. -/
def get_next_block (s : EHeap) (o : Nat) : Option Nat :=
  let next_location := o + get_payload (s.word o) + ALIGNMENT
  if next_location = s.size then none else some next_location

/-- `coalesce` of `explicit.c`: if the block immediately to the right exists
and is free, remove it from the free list and absorb its header plus payload
into the current block's header word. -/
def coalesce (s : EHeap) (o : Nat) : EHeap :=
  match get_next_block s o with
  | none => s
  | some nb =>
      if check_free s (some nb) = true then
        let added_space := get_payload (s.word nb) + ALIGNMENT
        let s1 := remove_freelist s nb
        { s1 with word := Function.update s1.word o (s1.word o + added_space) }
      else s

/-- `add_freelist` of `explicit.c`: push the block at `o` onto the front of
the free list (the C code writes `freelist_start->prev`, then `o`'s `next`,
then `o`'s `prev`, then the head pointer). -/
def add_freelist (s : EHeap) (o : Nat) : EHeap :=
  match s.fstart with
  | none =>
      { s with fstart := some o
               prev := Function.update s.prev o none
               next := Function.update s.next o none }
  | some h =>
      { s with prev := Function.update (Function.update s.prev h (some o)) o none
               next := Function.update s.next o (some h)
               fstart := some o }

/-- `add_block` of `explicit.c`: split the block at `o`, marking its first
`request` bytes used (`request + 1`) and creating a free remainder block at
`o + request + ALIGNMENT`; the remainder is pushed on the free list and then
offered to `coalesce`. -/
def add_block (s : EHeap) (o : Nat) (request : Nat) : EHeap :=
  let free := check_free s (some o)
  let payload_val := get_payload (s.word o)
  let s1 := { s with word := Function.update s.word o (request + 1) }
  let nw := o + request + ALIGNMENT
  let s2 := { s1 with word := Function.update s1.word nw (payload_val - request - ALIGNMENT) }
  let s3 := if free then remove_freelist s2 o else s2
  let s4 := add_freelist s3 nw
  coalesce s4 nw

/-- Loop body of `coalesce_multiple_blocks`, with explicit fuel.  Each
iteration of the C loop grows the header word at `o` by at least `ALIGNMENT`,
and header words never exceed the heap size in a well-formed state, so the
fuel `s.size` passed below is more than enough. -/
def coalesce_multiple_go (req : Nat) : Nat → EHeap → Nat → EHeap
  | 0, s, _ => s
  | fuel + 1, s, o =>
      match get_next_block s o with
      | none => s
      | some nb =>
          if check_free s (some nb) = true ∧ get_payload (s.word o) < req then
            coalesce_multiple_go req fuel (coalesce s o) o
          else s

/-- `coalesce_multiple_blocks` of `explicit.c`: keep merging the block at `o`
with its right neighbour while that neighbour is free and the payload is still
smaller than `req`. -/
def coalesce_multiple_blocks (s : EHeap) (o : Nat) (req : Nat) : EHeap :=
  coalesce_multiple_go req s.size s o

/-- `mymalloc` of `explicit.c`.  Returns the (possibly updated) state and the
returned pointer.  Note the source checks `MAX_REQUEST_SIZE` only after the
free-list search, splits only when the found block is the last one in address
order with `payload >= request + 3 * ALIGNMENT`, and otherwise marks the whole
block used (`payload += 1`) and unlinks it. -/
def mymalloc (s : EHeap) (requested_size : Nat) : EHeap × Option Nat :=
  let request := roundup requested_size ALIGNMENT
  match search_freelist s request with
  | none => (s, none)
  | some free_location =>
      if MAX_REQUEST_SIZE < request then (s, none)
      else
        let payload_val := get_payload (s.word free_location)
        if free_location + payload_val + ALIGNMENT = s.size ∧
            request + ALIGNMENT * 3 ≤ payload_val then
          (add_block s free_location request, some (free_location + ALIGNMENT))
        else
          let s1 := { s with word := Function.update s.word free_location (s.word free_location + 1) }
          (remove_freelist s1 free_location, some (free_location + ALIGNMENT))

/-- `myfree` of `explicit.c`: no-op on `NULL`; otherwise step back one header,
subtract 1 from the header word, push the block on the free list and coalesce
it with its right neighbour. -/
def myfree (s : EHeap) (ptr : Option Nat) : EHeap :=
  match ptr with
  | none => s
  | some p =>
      let o := p - ALIGNMENT
      let s1 := { s with word := Function.update s.word o (s.word o - 1) }
      coalesce (add_freelist s1 o) o

/-- Forward byte-by-byte copy, the observable semantics of `memcpy` as used by
both `myrealloc` implementations (byte `i` of the destination is written from
the current contents of byte `i` of the source, in increasing order of `i`). -/
def memcpyFrom (d : Nat → Nat) (dst src : Nat) : Nat → Nat → Nat
  | 0 => d
  | n + 1 => memcpyFrom (Function.update d dst (d src)) (dst + 1) (src + 1) n

/-- Result of a `myrealloc` call: either a normal return of the new state and
pointer, or `crash` — the C code reached `memcpy(NULL, old_ptr, n)` /
`assert(check != NULL)` because the fresh allocation failed (undefined
behaviour followed by an aborting assertion, not a normal return). -/
inductive ReallocResult where
  | crash : ReallocResult
  | ok : EHeap → Option Nat → ReallocResult

/-- `myrealloc` of `explicit.c`.  `NULL` pointer behaves as `mymalloc`; size 0
behaves as `myfree`; otherwise the block is coalesced forward while possible,
satisfied in place when large enough (splitting the tail block when
`request + 3 * ALIGNMENT < payload`, or an interior block when the stale
`old_size` is at least `request + 3 * ALIGNMENT`), and otherwise moved:
`mymalloc` the new size, `memcpy` `old_size` bytes, free the old block. -/
def myrealloc (s : EHeap) (old_ptr : Option Nat) (new_size : Nat) : ReallocResult :=
  match old_ptr with
  | none =>
      let r := mymalloc s new_size
      .ok r.1 r.2
  | some p =>
      let request := roundup new_size ALIGNMENT
      let o := p - ALIGNMENT
      let old_size := get_payload (s.word o)
      if new_size = 0 then .ok (myfree s (some p)) none
      else
        let s1 := coalesce_multiple_blocks s o request
        if request ≤ get_payload (s1.word o) then
          let block_end := get_payload (s1.word o) + p
          let s2 :=
            if block_end = s1.size ∧ request + ALIGNMENT * 3 < get_payload (s1.word o) then
              let nw := p + request
              let wNew := Function.update s1.word nw (get_payload (s1.word o) - request - ALIGNMENT)
              let s2a := { s1 with word := wNew }
              { s2a with word := Function.update s2a.word o (request + 1) }
            else s1
          let s2' := if block_end = s1.size ∧ request + ALIGNMENT * 3 < get_payload (s1.word o)
            then add_freelist s2 (p + request) else s2
          let s3 := if block_end ≠ s1.size ∧ request + ALIGNMENT * 3 ≤ old_size
            then add_block s2' o request else s2'
          .ok s3 (some p)
        else
          match mymalloc s1 new_size with
          | (_, none) => .crash
          | (s2, some new_ptr) =>
              let s3 := { s2 with data := memcpyFrom s2.data new_ptr p old_size }
              .ok (myfree s3 (some p)) (some new_ptr)

/-- State of the implicit allocator: no free list, just header words and
payload bytes. -/
structure IHeap where
  size : Nat
  word : Nat → Nat
  data : Nat → Nat

/-- A blank implicit heap. -/
def iEmptyHeap : IHeap :=
  { size := 0, word := fun _ => 0, data := fun _ => 0 }

/-- `myinit` of `implicit.c`: fails below `ALIGNMENT * 2` bytes, otherwise one
free block spans the region. -/
def imyinit (mem : IHeap) (heap_size : Nat) : Option IHeap :=
  if heap_size < ALIGNMENT * 2 then none
  else some
    { size := heap_size
      word := Function.update mem.word 0 (heap_size - ALIGNMENT)
      data := mem.data }

/-- Loop body of `mymalloc` of `implicit.c`, with explicit fuel (each
iteration advances the index by at least `ALIGNMENT`, so `s.size + 1` steps
always suffice in a well-formed state). -/
def imymalloc_go (s : IHeap) (request : Nat) : Nat → Nat → IHeap × Option Nat
  | 0, _ => (s, none)
  | fuel + 1, idx =>
      if idx = s.size then (s, none)
      else
        let payload := s.word idx
        let free := payload % 8 == 0
        let payload_value := get_payload payload
        if idx + payload_value + ALIGNMENT = s.size then
          if free = false ∨ payload_value < request then (s, none)
          else if free = true ∧ request + ALIGNMENT * 2 ≤ payload_value then
            let w1 := Function.update s.word idx (request + 1)
            let w2 := Function.update w1 (idx + request + ALIGNMENT) (payload_value - request - ALIGNMENT)
            ({ s with word := w2 }, some (idx + ALIGNMENT))
          else
            ({ s with word := Function.update s.word idx (request + 1) },
             some (idx + ALIGNMENT))
        else
          if free = true ∧ request ≤ payload_value then
            ({ s with word := Function.update s.word idx (payload + 1) },
             some (idx + ALIGNMENT))
          else
            imymalloc_go s request fuel (idx + payload_value + ALIGNMENT)

/-- `mymalloc` of `implicit.c`: returns `NULL` on a zero request, otherwise
scans blocks from the start of the segment. -/
def imymalloc (s : IHeap) (requested_size : Nat) : IHeap × Option Nat :=
  if requested_size = 0 then (s, none)
  else imymalloc_go s (iroundup requested_size ALIGNMENT) (s.size + 1) 0

/-- `myfree` of `implicit.c`: no-op on `NULL`, otherwise subtract 1 from the
header word of the pointed-to block.  Nothing else changes. -/
def imyfree (s : IHeap) (ptr : Option Nat) : IHeap :=
  match ptr with
  | none => s
  | some p =>
      let o := p - ALIGNMENT
      { s with word := Function.update s.word o (s.word o - 1) }

/-- Result of an implicit `myrealloc` call, with the same `crash` convention
as `ReallocResult` (the implicit variant also passes a `NULL` `mymalloc`
result straight to `memcpy` and an assert). -/
inductive IReallocResult where
  | crash : IReallocResult
  | ok : IHeap → Option Nat → IReallocResult

/-- `myrealloc` of `implicit.c`: `NULL` behaves as `mymalloc`, size 0 as
`myfree`; otherwise always allocate fresh, copy `new_size` bytes (note: not
`min(old, new)` — the source copies `new_size`), free the old block. -/
def imyrealloc (s : IHeap) (old_ptr : Option Nat) (new_size : Nat) : IReallocResult :=
  match old_ptr with
  | none =>
      let r := imymalloc s new_size
      .ok r.1 r.2
  | some p =>
      if new_size = 0 then .ok (imyfree s (some p)) none
      else
        match imymalloc s new_size with
        | (_, none) => .crash
        | (s2, some new_ptr) =>
            let s3 := { s2 with data := memcpyFrom s2.data new_ptr p new_size }
            .ok (imyfree s3 (some p)) (some new_ptr)

/-! ### The block partition

`Blocks word size o os` says: starting at offset `o` and repeatedly advancing
by `get_payload (word _) + ALIGNMENT` (exactly the step of `get_next_block`,
`validate_heap` and `dump_heap`), one visits the offsets in `os` in order and
lands exactly on `size` — never overshooting it.  This is the walk of the C
sources made into a predicate. -/

inductive Blocks (word : Nat → Nat) (size : Nat) : Nat → List Nat → Prop where
  | nil : Blocks word size size []
  | cons {o : Nat} {os : List Nat} : o < size →
      Blocks word size (o + get_payload (word o) + ALIGNMENT) os →
      Blocks word size o (o :: os)

/-- Executable walk over the partition (the loop of `validate_heap`), used to
establish `Blocks` facts about concrete states by evaluation. -/
def walkCheck (word : Nat → Nat) (size : Nat) : Nat → Nat → Option (List Nat)
  | 0, o => if o = size then some [] else none
  | fuel + 1, o =>
      if o = size then some []
      else if o < size then
        match walkCheck word size fuel (o + get_payload (word o) + ALIGNMENT) with
        | some os => some (o :: os)
        | none => none
      else none

/-! ### The doubly linked free list

`DLL prevf nextf p c xs` says: starting from the node pointer `c` whose
expected back-pointer is `p`, following the `next` links visits exactly the
offsets `xs` and then reaches `NULL`, and every visited node's `prev` link
points to the node it was reached from (`none` for the list head).  With
`p = none` and `c = freelist_start` this is precisely a well-formed doubly
linked free list. -/

inductive DLL (prevf nextf : Nat → Option Nat) : Option Nat → Option Nat → List Nat → Prop where
  | nil {p : Option Nat} : DLL prevf nextf p none []
  | cons {p : Option Nat} {o : Nat} {xs : List Nat} :
      prevf o = p → DLL prevf nextf (some o) (nextf o) xs →
      DLL prevf nextf p (some o) (o :: xs)

/-- Executable traversal of the doubly linked list, used to establish `DLL`
facts about concrete states by evaluation. -/
def chainCheck (prevf nextf : Nat → Option Nat) : Nat → Option Nat → Option Nat → Option (List Nat)
  | _, _, none => some []
  | 0, _, some _ => none
  | fuel + 1, p, some o =>
      if prevf o = p then
        match chainCheck prevf nextf fuel (some o) (nextf o) with
        | some xs => some (o :: xs)
        | none => none
      else none

/-- Well-formedness of an explicit-allocator state: the region is exactly
partitioned into the blocks `os`; the free list is a well-formed doubly
linked list over `fs`; every free-list node is a block; a block's low header
bits are zero exactly when it is on the free list; header words only ever
carry status 0 (free) or 1 (used); and the region is at least the minimum
`myinit` accepts. -/
structure Good (s : EHeap) (os fs : List Nat) : Prop where
  blocks : Blocks s.word s.size 0 os
  dll : DLL s.prev s.next none s.fstart fs
  sub : fs ⊆ os
  flag : ∀ b ∈ os, (s.word b % 8 = 0 ↔ b ∈ fs)
  enc : ∀ b ∈ os, s.word b % 8 ≤ 1
  minsize : ALIGNMENT * 3 ≤ s.size

/-- A valid argument for `myfree` / `myrealloc`: a pointer one header past the
start of some currently allocated block of the partition. -/
def ValidPtr (s : EHeap) (ptr : Nat) : Prop :=
  ALIGNMENT ≤ ptr ∧
  (∃ os, Blocks s.word s.size 0 os ∧ ptr - ALIGNMENT ∈ os) ∧
  s.word (ptr - ALIGNMENT) % 8 = 1

/-- States reachable by a sequence of `myinit` / `mymalloc` / `myfree` /
`myrealloc` calls with valid arguments, starting from a successful `myinit`
(on a region whose size is a multiple of the alignment unit, as the spec's
Region invariant requires).  A `myrealloc` call that crashes (see
`ReallocResult.crash`) produces no successor state. -/
inductive Reachable : EHeap → Prop where
  | init : ∀ (mem : EHeap) (heap_size : Nat) (s : EHeap),
      heap_size % ALIGNMENT = 0 → myinit mem heap_size = some s → Reachable s
  | malloc : ∀ (s : EHeap) (n : Nat), Reachable s → Reachable (mymalloc s n).1
  | free : ∀ (s : EHeap) (p : Option Nat), Reachable s →
      (p = none ∨ ∃ ptr, p = some ptr ∧ ValidPtr s ptr) → Reachable (myfree s p)
  | realloc : ∀ (s : EHeap) (p : Option Nat) (n : Nat) (s' : EHeap) (q : Option Nat),
      Reachable s → (p = none ∨ ∃ ptr, p = some ptr ∧ ValidPtr s ptr) →
      myrealloc s p n = .ok s' q → Reachable s'

/-- Whether a `myrealloc` run ended in the `memcpy(NULL, ..)` / failed-assert
crash. -/
def isCrash : ReallocResult → Bool
  | .crash => true
  | .ok _ _ => false

/-- The state in a normal `myrealloc` result (`dflt` for a crash). -/
def reallocHeap (r : ReallocResult) (dflt : EHeap) : EHeap :=
  match r with
  | .crash => dflt
  | .ok s _ => s

/-- The pointer in a normal `myrealloc` result (`none` for a crash). -/
def reallocPtr (r : ReallocResult) : Option Nat :=
  match r with
  | .crash => none
  | .ok _ q => q

/-- Whether an implicit `myrealloc` result is the crash outcome. -/
def iIsCrash : IReallocResult → Bool
  | .crash => true
  | .ok _ _ => false

/-- The state in a normal implicit `myrealloc` result (`dflt` for a crash). -/
def ireallocHeap (r : IReallocResult) (dflt : IHeap) : IHeap :=
  match r with
  | .crash => dflt
  | .ok s _ => s

/-- The pointer in a normal implicit `myrealloc` result (`none` for a crash). -/
def ireallocPtr (r : IReallocResult) : Option Nat :=
  match r with
  | .crash => none
  | .ok _ q => q

/-! ### Arithmetic facts about the header codec -/

theorem get_payload_mod (w : Nat) : get_payload w % 8 = 0 := by
  unfold get_payload; omega

theorem get_payload_le (w : Nat) : get_payload w ≤ w := by
  unfold get_payload; omega

theorem get_payload_of_even {w : Nat} (h : w % 8 = 0) : get_payload w = w := by
  unfold get_payload; omega

theorem get_payload_add_one {w : Nat} (h : w % 8 = 0) : get_payload (w + 1) = w := by
  unfold get_payload; omega

theorem get_payload_sub_one {w : Nat} (h : w % 8 = 1) :
    get_payload (w - 1) = get_payload w ∧ (w - 1) % 8 = 0 := by
  unfold get_payload; omega

theorem get_payload_add_aligned {w a : Nat} (h : a % 8 = 0) :
    get_payload (w + a) = get_payload w + a ∧ (w + a) % 8 = w % 8 := by
  unfold get_payload; omega

theorem roundup_mod (sz : Nat) : roundup sz ALIGNMENT % 8 = 0 := by
  simp only [roundup, ALIGNMENT]
  split <;> omega

theorem roundup_ge (sz : Nat) : 16 ≤ roundup sz ALIGNMENT := by
  simp only [roundup, ALIGNMENT]
  split <;> omega

theorem Blocks.le_size {w : Nat → Nat} {n o : Nat} {os : List Nat}
    (h : Blocks w n o os) : o ≤ n := by
  cases h with
  | nil => exact Nat.le_refl _
  | cons h1 _ => exact Nat.le_of_lt h1

theorem Blocks.head_eq {w : Nat → Nat} {n o x : Nat} {os : List Nat}
    (h : Blocks w n o (x :: os)) : x = o := by
  cases h; rfl

theorem Blocks.nil_eq {w : Nat → Nat} {n o : Nat}
    (h : Blocks w n o []) : o = n := by
  cases h; rfl

theorem Blocks.mem_le {w : Nat → Nat} {n o : Nat} {os : List Nat}
    (h : Blocks w n o os) : ∀ x ∈ os, o ≤ x := by
  induction h with
  | nil => intro x hx; cases hx
  | cons h1 h2 ih =>
      intro x hx
      rcases List.mem_cons.mp hx with rfl | hx
      · exact Nat.le_refl _
      · have := ih x hx; omega

theorem Blocks.mem_lt_size {w : Nat → Nat} {n o : Nat} {os : List Nat}
    (h : Blocks w n o os) : ∀ x ∈ os, x < n := by
  induction h with
  | nil => intro x hx; cases hx
  | cons h1 h2 ih =>
      intro x hx
      rcases List.mem_cons.mp hx with rfl | hx
      · exact h1
      · exact ih x hx

theorem Blocks.congrPayload {w w' : Nat → Nat} {n o : Nat} {os : List Nat}
    (h : Blocks w n o os) (hw : ∀ x ∈ os, get_payload (w' x) = get_payload (w x)) :
    Blocks w' n o os := by
  induction h with
  | nil => exact Blocks.nil
  | cons h1 h2 ih =>
      rename_i o' os'
      refine Blocks.cons h1 ?_
      have hx : get_payload (w' o') = get_payload (w o') :=
        hw o' (List.mem_cons_self _ _)
      rw [hx]
      exact ih fun x hx => hw x (List.mem_cons_of_mem _ hx)

theorem Blocks.sum_eq {w : Nat → Nat} {n o : Nat} {os : List Nat}
    (h : Blocks w n o os) :
    o + (os.map fun b => get_payload (w b) + ALIGNMENT).sum = n := by
  induction h with
  | nil => simp
  | cons h1 h2 ih =>
      simp only [List.map_cons, List.sum_cons]
      omega

theorem Blocks.mem_decomp {w : Nat → Nat} {n o b : Nat} {os : List Nat}
    (h : Blocks w n o os) (hb : b ∈ os) :
    ∃ l1 l2, os = l1 ++ b :: l2 ∧ Blocks w n b (b :: l2) := by
  induction h with
  | nil => cases hb
  | cons h1 h2 ih =>
      rename_i o' os'
      rcases List.mem_cons.mp hb with rfl | hb
      · exact ⟨[], os', rfl, Blocks.cons h1 h2⟩
      · obtain ⟨l1, l2, heq, hbl⟩ := ih hb
        exact ⟨o' :: l1, l2, by rw [heq]; rfl, hbl⟩

theorem Blocks.pairwise {w : Nat → Nat} {n o : Nat} {os : List Nat}
    (h : Blocks w n o os) :
    os.Pairwise (fun a b => a + get_payload (w a) + ALIGNMENT ≤ b) := by
  induction h with
  | nil => exact List.Pairwise.nil
  | cons h1 h2 ih =>
      exact List.Pairwise.cons (fun y hy => h2.mem_le y hy) ih

theorem Blocks.nodup {w : Nat → Nat} {n o : Nat} {os : List Nat}
    (h : Blocks w n o os) : os.Nodup := by
  refine h.pairwise.imp ?_
  intro a b hab
  unfold ALIGNMENT at hab
  omega

theorem Blocks.disjoint {w : Nat → Nat} {n o : Nat} {os : List Nat}
    (h : Blocks w n o os) {x y : Nat} (hx : x ∈ os) (hy : y ∈ os) (hne : x ≠ y) :
    x + get_payload (w x) + ALIGNMENT ≤ y ∨ y + get_payload (w y) + ALIGNMENT ≤ x := by
  have hp : os.Pairwise (fun a b =>
      a + get_payload (w a) + ALIGNMENT ≤ b ∨ b + get_payload (w b) + ALIGNMENT ≤ a) :=
    h.pairwise.imp fun hab => Or.inl hab
  have hsymm : Symmetric (fun a b : Nat =>
      a + get_payload (w a) + ALIGNMENT ≤ b ∨ b + get_payload (w b) + ALIGNMENT ≤ a) := by
    intro a b hab
    exact hab.symm
  exact List.Pairwise.forall hsymm hp hx hy hne

theorem Blocks.determ {w : Nat → Nat} {n o : Nat} {os os' : List Nat}
    (h : Blocks w n o os) (h' : Blocks w n o os') : os = os' := by
  induction h generalizing os' with
  | nil =>
      cases h' with
      | nil => rfl
      | cons h1 _ => omega
  | cons h1 h2 ih =>
      cases h' with
      | nil => omega
      | cons h1' h2' => rw [ih h2']

/-- Splitting a block: rewriting the header at `b` to payload `req` and
installing a fresh header at `b + req + ALIGNMENT` with the remaining payload
refines the partition, replacing `b`'s block by two adjacent blocks. -/
theorem Blocks.split {w w' : Nat → Nat} {n o b req : Nat} {l1 l2 : List Nat}
    (h : Blocks w n o (l1 ++ b :: l2))
    (hle : req + ALIGNMENT ≤ get_payload (w b))
    (hb : get_payload (w' b) = req)
    (hnw : get_payload (w' (b + req + ALIGNMENT)) = get_payload (w b) - req - ALIGNMENT)
    (hrest : ∀ x ∈ l1 ++ l2, get_payload (w' x) = get_payload (w x)) :
    Blocks w' n o (l1 ++ b :: (b + req + ALIGNMENT) :: l2) := by
  have hA : ALIGNMENT = 8 := rfl
  induction l1 generalizing o with
  | nil =>
      simp only [List.nil_append] at h ⊢
      cases h with
      | cons h1 h2 =>
          have hcont : b + get_payload (w b) + ALIGNMENT ≤ n := h2.le_size
          refine Blocks.cons h1 ?_
          have he1 : b + get_payload (w' b) + ALIGNMENT = b + req + ALIGNMENT := by omega
          rw [he1]
          refine Blocks.cons (by omega) ?_
          have he2 : b + req + ALIGNMENT + get_payload (w' (b + req + ALIGNMENT)) + ALIGNMENT
              = b + get_payload (w b) + ALIGNMENT := by omega
          rw [he2]
          exact h2.congrPayload fun x hx => hrest x (by simpa using hx)
  | cons a l1' ih =>
      simp only [List.cons_append] at h ⊢
      cases h with
      | cons h1 h2 =>
          refine Blocks.cons h1 ?_
          have ha : get_payload (w' a) = get_payload (w a) :=
            hrest a (by simp)
          rw [ha]
          exact ih h2 fun x hx => hrest x (by
            rcases List.mem_append.mp hx with hx | hx
            · exact List.mem_append.mpr (Or.inl (List.mem_cons_of_mem _ hx))
            · exact List.mem_append.mpr (Or.inr hx))

/-- Merging two adjacent blocks: growing the header word at `b` by its right
neighbour's `payload + ALIGNMENT` removes that neighbour from the partition. -/
theorem Blocks.cons_inv {w : Nat → Nat} {n o : Nat} {os : List Nat}
    (h : Blocks w n o (o :: os)) :
    o < n ∧ Blocks w n (o + get_payload (w o) + ALIGNMENT) os := by
  cases h with
  | cons h1 h2 => exact ⟨h1, h2⟩

theorem Blocks.merge {w w' : Nat → Nat} {n o b r : Nat} {l1 l2 : List Nat}
    (h : Blocks w n o (l1 ++ b :: r :: l2))
    (hr : r = b + get_payload (w b) + ALIGNMENT)
    (hb : get_payload (w' b) = get_payload (w b) + get_payload (w r) + ALIGNMENT)
    (hrest : ∀ x ∈ l1 ++ l2, get_payload (w' x) = get_payload (w x)) :
    Blocks w' n o (l1 ++ b :: l2) := by
  subst hr
  induction l1 generalizing o with
  | nil =>
      simp only [List.nil_append] at h ⊢
      have hob : b = o := h.head_eq
      subst hob
      obtain ⟨h1, h2⟩ := h.cons_inv
      obtain ⟨h3, h4⟩ := h2.cons_inv
      refine Blocks.cons h1 ?_
      have he : b + get_payload (w' b) + ALIGNMENT
          = b + get_payload (w b) + ALIGNMENT
            + get_payload (w (b + get_payload (w b) + ALIGNMENT)) + ALIGNMENT := by omega
      rw [he]
      exact h4.congrPayload fun x hx => hrest x (by simpa using hx)
  | cons a l1' ih =>
      simp only [List.cons_append] at h ⊢
      have hao : a = o := h.head_eq
      subst hao
      obtain ⟨h1, h2⟩ := h.cons_inv
      refine Blocks.cons h1 ?_
      have ha : get_payload (w' a) = get_payload (w a) :=
        hrest a (by simp)
      rw [ha]
      exact ih (fun x hx => hrest x (by
        rcases List.mem_append.mp hx with hx | hx
        · exact List.mem_append.mpr (Or.inl (List.mem_cons_of_mem _ hx))
        · exact List.mem_append.mpr (Or.inr hx))) h2

theorem walkCheck_sound {word : Nat → Nat} {size : Nat} :
    ∀ {fuel o : Nat} {os : List Nat},
      walkCheck word size fuel o = some os → Blocks word size o os := by
  intro fuel
  induction fuel with
  | zero =>
      intro o os h
      simp only [walkCheck] at h
      split at h
      · cases h
        rename_i he
        subst he
        exact Blocks.nil
      · cases h
  | succ fuel ih =>
      intro o os h
      simp only [walkCheck] at h
      split at h
      · cases h
        rename_i he
        subst he
        exact Blocks.nil
      · split at h
        · rename_i hne hlt
          cases hcall : walkCheck word size fuel (o + get_payload (word o) + ALIGNMENT) with
          | none => rw [hcall] at h; cases h
          | some os' =>
              rw [hcall] at h
              cases h
              exact Blocks.cons hlt (ih hcall)
        · cases h

/-! ### Structural lemmas about the doubly linked free list -/

theorem DLL.nil_inv {prevf nextf : Nat → Option Nat} {p c : Option Nat}
    (h : DLL prevf nextf p c []) : c = none := by
  cases h; rfl

theorem DLL.cons_elim {prevf nextf : Nat → Option Nat} {p c : Option Nat}
    {x : Nat} {xs : List Nat} (h : DLL prevf nextf p c (x :: xs)) :
    c = some x ∧ prevf x = p ∧ DLL prevf nextf (some x) (nextf x) xs := by
  cases h with
  | cons h1 h2 => exact ⟨rfl, h1, h2⟩

theorem DLL.congr {prevf nextf prevf' nextf' : Nat → Option Nat}
    {p c : Option Nat} {xs : List Nat}
    (h : DLL prevf nextf p c xs)
    (hp : ∀ x ∈ xs, prevf' x = prevf x) (hn : ∀ x ∈ xs, nextf' x = nextf x) :
    DLL prevf' nextf' p c xs := by
  induction h with
  | nil => exact DLL.nil
  | cons h1 h2 ih =>
      rename_i p' o xs'
      refine DLL.cons ?_ ?_
      · rw [hp o (List.mem_cons_self _ _)]; exact h1
      · rw [hn o (List.mem_cons_self _ _)]
        exact ih (fun x hx => hp x (List.mem_cons_of_mem _ hx))
          (fun x hx => hn x (List.mem_cons_of_mem _ hx))

theorem DLL.unique {prevf nextf : Nat → Option Nat} {p p' c : Option Nat}
    {xs ys : List Nat}
    (h : DLL prevf nextf p c xs) (h' : DLL prevf nextf p' c ys) : xs = ys := by
  induction h generalizing p' ys with
  | nil => cases h' with | nil => rfl
  | cons h1 h2 ih =>
      cases h' with
      | cons h1' h2' => rw [ih h2']

theorem DLL.suffix_at {prevf nextf : Nat → Option Nat} {p c : Option Nat}
    {x : Nat} {l1 l2 : List Nat}
    (h : DLL prevf nextf p c (l1 ++ x :: l2)) :
    ∃ p', DLL prevf nextf p' (some x) (x :: l2) := by
  induction l1 generalizing p c with
  | nil =>
      obtain ⟨hc, _, _⟩ := (List.nil_append (x :: l2) ▸ h).cons_elim
      exact ⟨p, hc ▸ h⟩
  | cons a l1' ih =>
      obtain ⟨hc, _, htail⟩ := (List.cons_append a l1' (x :: l2) ▸ h).cons_elim
      exact ih htail

theorem DLL.nodup_chain {prevf nextf : Nat → Option Nat} {p c : Option Nat}
    {xs : List Nat} (h : DLL prevf nextf p c xs) : xs.Nodup := by
  induction h with
  | nil => exact List.nodup_nil
  | cons h1 h2 ih =>
      rename_i p' o xs'
      refine List.nodup_cons.mpr ⟨?_, ih⟩
      intro hmem
      obtain ⟨l1, l2, heq⟩ := List.append_of_mem hmem
      rw [heq] at h2
      obtain ⟨p'', hsfx⟩ := h2.suffix_at
      have hfull : DLL prevf nextf p' (some o) (o :: (l1 ++ o :: l2)) := by
        rw [← heq] at h2 ⊢
        exact DLL.cons h1 h2
      have hlists := DLL.unique hfull hsfx
      have hlen := congrArg List.length hlists
      simp at hlen
      omega

theorem DLL.sym {prevf nextf : Nat → Option Nat} {p c : Option Nat}
    {fs : List Nat} {a b : Nat}
    (h : DLL prevf nextf p c fs) (ha : a ∈ fs) (hb : nextf a = some b) :
    prevf b = some a := by
  obtain ⟨l1, l2, heq⟩ := List.append_of_mem ha
  rw [heq] at h
  obtain ⟨p', hsfx⟩ := h.suffix_at
  obtain ⟨_, _, htail⟩ := hsfx.cons_elim
  rw [hb] at htail
  cases l2 with
  | nil => simpa using htail.nil_inv
  | cons y l2' =>
      obtain ⟨hcy, hpy, _⟩ := htail.cons_elim
      cases hcy
      exact hpy

theorem chainCheck_sound {prevf nextf : Nat → Option Nat} :
    ∀ {fuel : Nat} {p c : Option Nat} {xs : List Nat},
      chainCheck prevf nextf fuel p c = some xs → DLL prevf nextf p c xs := by
  intro fuel
  induction fuel with
  | zero =>
      intro p c xs h
      cases c with
      | none =>
          simp only [chainCheck] at h
          cases h
          exact DLL.nil
      | some o => simp only [chainCheck] at h; cases h
  | succ fuel ih =>
      intro p c xs h
      cases c with
      | none =>
          simp only [chainCheck] at h
          cases h
          exact DLL.nil
      | some o =>
          simp only [chainCheck] at h
          split at h
          · rename_i hp
            cases hcall : chainCheck prevf nextf fuel (some o) (nextf o) with
            | none => rw [hcall] at h; cases h
            | some xs' =>
                rw [hcall] at h
                cases h
                exact DLL.cons hp (ih hcall)
          · cases h

/-! ### Surgery on the free list -/

theorem add_freelist_frame (s : EHeap) (o : Nat) :
    (add_freelist s o).word = s.word ∧ (add_freelist s o).data = s.data ∧
    (add_freelist s o).size = s.size := by
  unfold add_freelist
  cases hf : s.fstart <;> simp

theorem remove_freelist_frame (s : EHeap) (x : Nat) :
    (remove_freelist s x).word = s.word ∧ (remove_freelist s x).data = s.data ∧
    (remove_freelist s x).size = s.size := by
  unfold remove_freelist
  cases hp : s.prev x <;> cases hn : s.next x <;> simp

theorem add_freelist_dll {s : EHeap} {fs : List Nat} {o : Nat}
    (h : DLL s.prev s.next none s.fstart fs) (ho : o ∉ fs) :
    DLL (add_freelist s o).prev (add_freelist s o).next none
      (add_freelist s o).fstart (o :: fs) := by
  cases fs with
  | nil =>
      have hf : s.fstart = none := h.nil_inv
      simp only [add_freelist, hf]
      refine DLL.cons (by simp) ?_
      simp only [Function.update_same]
      exact DLL.nil
  | cons hd t =>
      obtain ⟨hf, hph, htail⟩ := h.cons_elim
      have hoh : o ≠ hd := fun he => ho (he ▸ List.mem_cons_self _ _)
      have hnt : hd ∉ t := (List.nodup_cons.mp h.nodup_chain).1
      simp only [add_freelist, hf]
      refine DLL.cons (by simp) ?_
      rw [Function.update_same]
      refine DLL.cons ?_ ?_
      · rw [Function.update_noteq (Ne.symm hoh), Function.update_same]
      · rw [Function.update_noteq (Ne.symm hoh)]
        refine htail.congr (fun x hx => ?_) (fun x hx => ?_)
        · have hxo : x ≠ o := fun he => ho (he ▸ List.mem_cons_of_mem _ hx)
          have hxh : x ≠ hd := fun he => hnt (he ▸ hx)
          rw [Function.update_noteq hxo, Function.update_noteq hxh]
        · have hxo : x ≠ o := fun he => ho (he ▸ List.mem_cons_of_mem _ hx)
          rw [Function.update_noteq hxo]

theorem dll_prev_of_mid {prevf nextf : Nat → Option Nat} {x : Nat} {f2 : List Nat} :
    ∀ {f1 : List Nat} {p c : Option Nat}, f1 ≠ [] →
      DLL prevf nextf p c (f1 ++ x :: f2) → ∃ ph, ph ∈ f1 ∧ prevf x = some ph := by
  intro f1
  induction f1 with
  | nil => intro p c hne; exact absurd rfl hne
  | cons b f1' ih =>
      intro p c hne h
      obtain ⟨hc, hpb, htail⟩ := (List.cons_append b f1' (x :: f2) ▸ h).cons_elim
      cases f1' with
      | nil =>
          obtain ⟨_, hpx, _⟩ := (List.nil_append (x :: f2) ▸ htail).cons_elim
          exact ⟨b, List.mem_cons_self _ _, hpx⟩
      | cons b2 f1'' =>
          obtain ⟨ph, hmem, hpx⟩ := ih (by simp) htail
          exact ⟨ph, List.mem_cons_of_mem _ hmem, hpx⟩

theorem dll_next_at {prevf nextf : Nat → Option Nat} {x : Nat} {f1 f2 : List Nat}
    {p c : Option Nat} (h : DLL prevf nextf p c (f1 ++ x :: f2)) :
    nextf x = f2.head? := by
  obtain ⟨p', hsfx⟩ := h.suffix_at
  obtain ⟨_, _, htail⟩ := hsfx.cons_elim
  cases f2 with
  | nil => simpa using htail.nil_inv
  | cons y t =>
      obtain ⟨hcy, _, _⟩ := htail.cons_elim
      simpa using hcy

theorem dll_remove_aux {prevf nextf : Nat → Option Nat} {x ph : Nat} {f2 : List Nat}
    (hph : prevf x = some ph) (hnx : nextf x = f2.head?) :
    ∀ {f1 : List Nat} {p c : Option Nat}, f1 ≠ [] → (f1 ++ x :: f2).Nodup →
      DLL prevf nextf p c (f1 ++ x :: f2) →
      ph ∈ f1 ∧
      DLL (match f2.head? with
           | some nh => Function.update prevf nh (some ph)
           | none => prevf)
          (Function.update nextf ph (nextf x)) p c (f1 ++ f2) := by
  intro f1
  induction f1 with
  | nil => intro p c hne; exact absurd rfl hne
  | cons b f1' ih =>
      intro p c hne hnd h
      obtain ⟨hc, hpb, htail⟩ := (List.cons_append b f1' (x :: f2) ▸ h).cons_elim
      subst hc
      have hbrest : b ∉ f1' ++ x :: f2 := (List.nodup_cons.mp hnd).1
      cases f1' with
      | nil =>
          obtain ⟨_, hpx, htail2⟩ := (List.nil_append (x :: f2) ▸ htail).cons_elim
          rw [hph] at hpx
          have hphb : ph = b := Option.some_inj.mp hpx
          subst hphb
          refine ⟨List.mem_cons_self _ _, ?_⟩
          simp only [List.nil_append] at hbrest ⊢
          cases f2 with
          | nil =>
              simp only [List.head?_nil] at hnx ⊢
              refine DLL.cons hpb ?_
              rw [Function.update_same, hnx]
              exact DLL.nil
          | cons nh t =>
              simp only [List.head?_cons] at hnx ⊢
              have hbnh : ph ≠ nh := by
                intro he
                exact hbrest (he ▸ List.mem_cons_of_mem _ (List.mem_cons_self _ _))
              have hbt : ph ∉ t := by
                intro hmem
                exact hbrest (List.mem_cons_of_mem _ (List.mem_cons_of_mem _ hmem))
              obtain ⟨_, _, htail3⟩ := htail2.cons_elim
              have hnht : nh ∉ t := (List.nodup_cons.mp htail2.nodup_chain).1
              refine DLL.cons ?_ ?_
              · rw [Function.update_noteq hbnh, hpb]
              · rw [Function.update_same, hnx]
                refine DLL.cons ?_ ?_
                · rw [Function.update_same]
                · rw [Function.update_noteq (fun he => hbnh he.symm)]
                  refine htail3.congr (fun z hz => ?_) (fun z hz => ?_)
                  · rw [Function.update_noteq (by intro he; subst he; exact absurd hz hnht)]
                  · rw [Function.update_noteq (by intro he; subst he; exact absurd hz hbt)]
      | cons b2 f1'' =>
          obtain ⟨hmem, hdll⟩ := ih (by simp) (List.nodup_cons.mp hnd).2 htail
          have hbph : b ≠ ph := by
            intro he
            exact hbrest (List.mem_append.mpr (Or.inl (he ▸ hmem)))
          have hbf2 : b ∉ f2 := fun hm =>
            hbrest (List.mem_append.mpr (Or.inr (List.mem_cons_of_mem _ hm)))
          refine ⟨List.mem_cons_of_mem _ hmem, ?_⟩
          refine DLL.cons ?_ ?_
          · cases hf2 : f2 with
            | nil => simpa [hf2] using hpb
            | cons nh t =>
                have hbnh : b ≠ nh := fun he => hbf2 (by rw [hf2, he]; exact List.mem_cons_self _ _)
                simp only [List.head?_cons]
                rw [Function.update_noteq hbnh, hpb]
          · rw [Function.update_noteq hbph]
            exact hdll

theorem remove_freelist_dll {s : EHeap} {f1 f2 : List Nat} {x : Nat}
    (h : DLL s.prev s.next none s.fstart (f1 ++ x :: f2)) :
    DLL (remove_freelist s x).prev (remove_freelist s x).next none
      (remove_freelist s x).fstart (f1 ++ f2) := by
  have hnx : s.next x = f2.head? := dll_next_at h
  cases f1 with
  | nil =>
      obtain ⟨hc, hpx, htail⟩ := (List.nil_append (x :: f2) ▸ h).cons_elim
      cases f2 with
      | nil =>
          have hn : s.next x = none := by simpa using hnx
          simp only [remove_freelist, hpx, hn, List.nil_append]
          exact DLL.nil
      | cons y t =>
          have hn : s.next x = some y := by simpa using hnx
          rw [hn] at htail
          obtain ⟨_, hpy, htail2⟩ := htail.cons_elim
          have hyt : y ∉ t := (List.nodup_cons.mp htail.nodup_chain).1
          simp only [remove_freelist, hpx, hn, List.nil_append]
          refine DLL.cons (Function.update_same _ _ _) ?_
          refine htail2.congr (fun z hz => ?_) (fun z hz => rfl)
          have hzy : z ≠ y := fun he => hyt (he ▸ hz)
          exact Function.update_noteq hzy _ _
  | cons a f1' =>
      obtain ⟨ph, hmem, hph⟩ := dll_prev_of_mid (by simp) h
      obtain ⟨hpm, hdll⟩ := dll_remove_aux hph hnx (by simp) h.nodup_chain h
      cases hf2 : f2 with
      | nil =>
          subst hf2
          have hn : s.next x = none := by simpa using hnx
          simp only [List.head?_nil] at hdll
          rw [hn] at hdll
          simp only [remove_freelist, hph, hn]
          exact hdll
      | cons nh t =>
          subst hf2
          have hn : s.next x = some nh := by simpa using hnx
          simp only [List.head?_cons] at hdll
          rw [hn] at hdll
          simp only [remove_freelist, hph, hn]
          exact hdll

/-! ### Soundness of the free-list search -/

theorem search_go_sound {s : EHeap} {request : Nat} :
    ∀ {fuel : Nat} {p c : Option Nat} {xs : List Nat} {r : Nat},
      DLL s.prev s.next p c xs →
      search_freelist_go s request fuel c = some r →
      r ∈ xs ∧ s.word r % 8 = 0 ∧ request ≤ get_payload (s.word r) := by
  intro fuel
  induction fuel with
  | zero =>
      intro p c xs r hd h
      simp [search_freelist_go] at h
  | succ fuel ih =>
      intro p c xs r hd h
      cases c with
      | none => simp [search_freelist_go] at h
      | some curr =>
          cases hd with
          | cons hp htail =>
              rename_i xs'
              simp only [search_freelist_go] at h
              split at h
              · rename_i hcond
                cases h
                refine ⟨List.mem_cons_self _ _, ?_, hcond.2⟩
                have := hcond.1
                simpa [check_free] using this
              · obtain ⟨hmem, hrest⟩ := ih htail h
                exact ⟨List.mem_cons_of_mem _ hmem, hrest⟩

theorem search_freelist_sound {s : EHeap} {os fs : List Nat} {req r : Nat}
    (hG : Good s os fs) (h : search_freelist s req = some r) :
    r ∈ fs ∧ s.word r % 8 = 0 ∧ req ≤ get_payload (s.word r) :=
  search_go_sound hG.dll h

/-! ### Specification of coalesce -/

theorem coalesce_frame (s : EHeap) (b : Nat) :
    (coalesce s b).data = s.data ∧ (coalesce s b).size = s.size ∧
    (coalesce s b).word b % 8 = s.word b % 8 ∧
    get_payload (s.word b) ≤ get_payload ((coalesce s b).word b) := by
  unfold coalesce
  rcases hnb : get_next_block s b with _ | nb
  · simp
  · simp only
    split
    · obtain ⟨hw, hd, hs⟩ := remove_freelist_frame s nb
      have h8 : (get_payload (s.word nb) + ALIGNMENT) % 8 = 0 := by
        have := get_payload_mod (s.word nb)
        unfold ALIGNMENT
        omega
      refine ⟨hd, hs, ?_, ?_⟩
      · simp only [Function.update_same, hw]
        exact (get_payload_add_aligned h8).2
      · simp only [Function.update_same, hw]
        have := (@get_payload_add_aligned (s.word b) _ h8).1
        omega
    · simp

theorem mem_middle_iff {x r : Nat} {g1 g2 : List Nat} (hxr : x ≠ r) :
    x ∈ g1 ++ r :: g2 ↔ x ∈ g1 ++ g2 := by
  simp [List.mem_append, List.mem_cons, hxr]

theorem coalesce_spec {s : EHeap} {os fs : List Nat} {b : Nat}
    (hG : Good s os fs) (hb : b ∈ os) :
    (coalesce s b = s ∧
      (get_next_block s b = none ∨
        ∃ r, get_next_block s b = some r ∧ s.word r % 8 ≠ 0))
    ∨
    (∃ r l1 l2 g1 g2, get_next_block s b = some r ∧ s.word r % 8 = 0 ∧
      r = b + get_payload (s.word b) + ALIGNMENT ∧ b ≠ r ∧
      os = l1 ++ b :: r :: l2 ∧ fs = g1 ++ r :: g2 ∧
      (coalesce s b).word = Function.update s.word b
        (s.word b + (get_payload (s.word r) + ALIGNMENT)) ∧
      (coalesce s b).data = s.data ∧ (coalesce s b).size = s.size ∧
      r ∉ l1 ++ b :: l2 ∧ r ∉ g1 ++ g2 ∧
      Good (coalesce s b) (l1 ++ b :: l2) (g1 ++ g2)) := by
  have hA : ALIGNMENT = 8 := rfl
  rcases hnb : get_next_block s b with _ | nb
  · left
    constructor
    · unfold coalesce; rw [hnb]
    · exact Or.inl rfl
  · by_cases hfree : s.word nb % 8 = 0
    · right
      obtain ⟨l1, l2', hosdec, hbl⟩ := hG.blocks.mem_decomp hb
      obtain ⟨hblt, hcont⟩ := hbl.cons_inv
      have hnbval : nb = b + get_payload (s.word b) + ALIGNMENT ∧
          b + get_payload (s.word b) + ALIGNMENT ≠ s.size := by
        unfold get_next_block at hnb
        simp only at hnb
        split at hnb
        · cases hnb
        · rename_i hne
          cases hnb
          exact ⟨rfl, hne⟩
      obtain ⟨hnbeq, hnbne⟩ := hnbval
      cases l2' with
      | nil => exact absurd hcont.nil_eq hnbne
      | cons r l2 =>
          have hr : r = b + get_payload (s.word b) + ALIGNMENT := hcont.head_eq
          have hnbr : nb = r := by rw [hnbeq, hr]
          subst hnbr
          have hbr : b ≠ nb := by
            have := get_payload_mod (s.word b)
            omega
          -- membership and nodup bookkeeping on the partition side
          have hros : nb ∈ os := by rw [hosdec]; simp
          have hosnodup : (l1 ++ b :: nb :: l2).Nodup := hosdec ▸ hG.blocks.nodup
          obtain ⟨hnl1, hncons, hdisj⟩ := List.nodup_append.mp hosnodup
          have hbcons : b ∉ nb :: l2 := (List.nodup_cons.mp hncons).1
          have hrl2 : nb ∉ l2 := (List.nodup_cons.mp (List.nodup_cons.mp hncons).2).1
          have hrl1 : nb ∉ l1 := fun hm => hdisj hm (by simp)
          have hbl1 : b ∉ l1 := fun hm => hdisj hm (by simp)
          have hbl2 : b ∉ l2 := fun hm => hbcons (List.mem_cons_of_mem _ hm)
          -- the absorbed neighbour is on the free list
          have hrfs : nb ∈ fs := (hG.flag nb hros).mp hfree
          obtain ⟨g1, g2, hfsdec⟩ := List.append_of_mem hrfs
          have hfsnodup : (g1 ++ nb :: g2).Nodup := hfsdec ▸ hG.dll.nodup_chain
          obtain ⟨hng1, hngcons, hgdisj⟩ := List.nodup_append.mp hfsnodup
          have hrg2 : nb ∉ g2 := (List.nodup_cons.mp hngcons).1
          have hrg1 : nb ∉ g1 := fun hm => hgdisj hm (by simp)
          -- the resulting state, explicitly
          have hcf : check_free s (some nb) = true := by simp [check_free, hfree]
          have hs1w := remove_freelist_frame s nb
          have hword : (coalesce s b).word = Function.update s.word b
              (s.word b + (get_payload (s.word nb) + ALIGNMENT)) := by
            simp [coalesce, hnb, hcf, hs1w.1]
          have hdata : (coalesce s b).data = s.data := by
            simp [coalesce, hnb, hcf, hs1w.2.1]
          have hsize : (coalesce s b).size = s.size := by
            simp [coalesce, hnb, hcf, hs1w.2.2]
          have hpn : (coalesce s b).prev = (remove_freelist s nb).prev := by
            simp [coalesce, hnb, hcf]
          have hnn : (coalesce s b).next = (remove_freelist s nb).next := by
            simp [coalesce, hnb, hcf]
          have hfn : (coalesce s b).fstart = (remove_freelist s nb).fstart := by
            simp [coalesce, hnb, hcf]
          have h8 : (get_payload (s.word nb) + ALIGNMENT) % 8 = 0 := by
            have := get_payload_mod (s.word nb)
            omega
          have hpayb : get_payload ((coalesce s b).word b)
              = get_payload (s.word b) + (get_payload (s.word nb) + ALIGNMENT) := by
            rw [hword, Function.update_same]
            exact (get_payload_add_aligned h8).1
          have hmodb : (coalesce s b).word b % 8 = s.word b % 8 := by
            rw [hword, Function.update_same]
            exact (get_payload_add_aligned h8).2
          have hframe : ∀ x, x ≠ b → (coalesce s b).word x = s.word x := by
            intro x hx
            rw [hword]
            exact Function.update_noteq hx _ _
          have hdll2 : DLL (remove_freelist s nb).prev (remove_freelist s nb).next none
              (remove_freelist s nb).fstart (g1 ++ g2) := by
            refine remove_freelist_dll ?_
            rw [← hfsdec]
            exact hG.dll
          have hrnos : nb ∉ l1 ++ b :: l2 := by
            simp only [List.mem_append, List.mem_cons]
            push_neg
            exact ⟨hrl1, fun he => hbr he.symm, hrl2⟩
          have hrnfs : nb ∉ g1 ++ g2 := by
            simp only [List.mem_append]
            push_neg
            exact ⟨hrg1, hrg2⟩
          refine ⟨nb, l1, l2, g1, g2, rfl, hfree, hnbeq, hbr, hosdec, hfsdec,
            hword, hdata, hsize, hrnos, hrnfs, ?_⟩
          -- the well-formedness of the merged state
          refine ⟨?_, ?_, ?_, ?_, ?_, ?_⟩
          · -- partition
            rw [hsize]
            refine Blocks.merge (hosdec ▸ hG.blocks) hr ?_ ?_
            · rw [hpayb]; omega
            · intro x hx
              have hxb : x ≠ b := by
                rintro rfl
                rcases List.mem_append.mp hx with hx | hx
                · exact hbl1 hx
                · exact hbl2 hx
              rw [hframe x hxb]
          · -- free list
            rw [hpn, hnn, hfn]
            exact hdll2
          · -- free list members are blocks
            intro x hx
            have hxfs : x ∈ fs := by
              rw [hfsdec]
              rcases List.mem_append.mp hx with hx | hx
              · exact List.mem_append.mpr (Or.inl hx)
              · exact List.mem_append.mpr (Or.inr (List.mem_cons_of_mem _ hx))
            have hxr : x ≠ nb := fun he => hrnfs (he ▸ hx)
            have hxos : x ∈ os := hG.sub hxfs
            rw [hosdec] at hxos
            rcases List.mem_append.mp hxos with hx2 | hx2
            · exact List.mem_append.mpr (Or.inl hx2)
            · rcases List.mem_cons.mp hx2 with he | hx2
              · exact List.mem_append.mpr (Or.inr (he ▸ List.mem_cons_self _ _))
              · rcases List.mem_cons.mp hx2 with he | hx2
                · exact absurd he hxr
                · exact List.mem_append.mpr (Or.inr (List.mem_cons_of_mem _ hx2))
          · -- the free flag describes free-list membership
            intro x hx
            have hxr : x ≠ nb := fun he => hrnos (he ▸ hx)
            have hxos : x ∈ os := by
              rw [hosdec]
              simp only [List.mem_append, List.mem_cons] at hx ⊢
              tauto
            have hmem_iff : x ∈ g1 ++ g2 ↔ x ∈ fs := by
              rw [hfsdec]
              simp only [List.mem_append, List.mem_cons]
              constructor
              · tauto
              · intro h
                rcases h with h | h | h
                · tauto
                · exact absurd h hxr
                · tauto
            by_cases hxb : x = b
            · subst hxb
              rw [hmodb, hmem_iff]
              exact hG.flag x hxos
            · rw [hframe x hxb, hmem_iff]
              exact hG.flag x hxos
          · -- status bits stay 0 or 1
            intro x hx
            have hxos : x ∈ os := by
              rw [hosdec]
              simp only [List.mem_append, List.mem_cons] at hx ⊢
              tauto
            by_cases hxb : x = b
            · subst hxb
              rw [hmodb]
              exact hG.enc x hxos
            · rw [hframe x hxb]
              exact hG.enc x hxos
          · rw [hsize]
            exact hG.minsize
    · left
      constructor
      · simp [coalesce, hnb, check_free, hfree]
      · exact Or.inr ⟨nb, rfl, hfree⟩

theorem coalesce_good {s : EHeap} {os fs : List Nat} {b : Nat}
    (hG : Good s os fs) (hb : b ∈ os) :
    ∃ os' fs', Good (coalesce s b) os' fs' ∧ b ∈ os' ∧
      (coalesce s b).data = s.data ∧ (coalesce s b).size = s.size ∧
      (coalesce s b).word b % 8 = s.word b % 8 ∧
      get_payload (s.word b) ≤ get_payload ((coalesce s b).word b) ∧
      (∀ x ∈ os, x ≠ b → s.word x % 8 = 1 →
        x ∈ os' ∧ (coalesce s b).word x = s.word x) := by
  rcases coalesce_spec hG hb with ⟨heq, _⟩ |
    ⟨r, l1, l2, g1, g2, hnb, hfree, hreq, hbr, hosdec, hfsdec, hword, hdata, hsize,
      hrnos, hrnfs, hGood⟩
  · rw [heq]
    exact ⟨os, fs, hG, hb, rfl, rfl, rfl, Nat.le_refl _, fun x hx _ _ => ⟨hx, rfl⟩⟩
  · have h8 : (get_payload (s.word r) + ALIGNMENT) % 8 = 0 := by
      have := get_payload_mod (s.word r)
      have hA : ALIGNMENT = 8 := rfl
      omega
    refine ⟨l1 ++ b :: l2, g1 ++ g2, hGood, by simp, hdata, hsize, ?_, ?_, ?_⟩
    · rw [hword, Function.update_same]
      exact (get_payload_add_aligned h8).2
    · rw [hword, Function.update_same]
      have := (@get_payload_add_aligned (s.word b) _ h8).1
      omega
    · intro x hx hxb hused
      have hxr : x ≠ r := by
        intro he
        rw [he, hfree] at hused
        cases hused
      have hxmem : x ∈ l1 ++ b :: l2 := by
        rw [hosdec] at hx
        simp only [List.mem_append, List.mem_cons] at hx ⊢
        tauto
      refine ⟨hxmem, ?_⟩
      rw [hword]
      exact Function.update_noteq hxb _ _

theorem coalesce_multiple_go_id {req fuel : Nat} {s : EHeap} {b : Nat}
    (h : req ≤ get_payload (s.word b)) :
    coalesce_multiple_go req fuel s b = s := by
  cases fuel with
  | zero => rfl
  | succ fuel =>
      rcases hnb : get_next_block s b with _ | nb
      · simp only [coalesce_multiple_go, hnb]
      · simp only [coalesce_multiple_go, hnb]
        rw [if_neg]
        intro hc
        omega

theorem coalesce_multiple_go_good {req : Nat} :
    ∀ {fuel : Nat} {s : EHeap} {os fs : List Nat} {b : Nat},
      Good s os fs → b ∈ os →
      ∃ os' fs', Good (coalesce_multiple_go req fuel s b) os' fs' ∧ b ∈ os' ∧
        (coalesce_multiple_go req fuel s b).data = s.data ∧
        (coalesce_multiple_go req fuel s b).size = s.size ∧
        (coalesce_multiple_go req fuel s b).word b % 8 = s.word b % 8 ∧
        get_payload (s.word b) ≤ get_payload ((coalesce_multiple_go req fuel s b).word b) ∧
        (∀ x ∈ os, x ≠ b → s.word x % 8 = 1 →
          x ∈ os' ∧ (coalesce_multiple_go req fuel s b).word x = s.word x) := by
  intro fuel
  induction fuel with
  | zero =>
      intro s os fs b hG hb
      exact ⟨os, fs, hG, hb, rfl, rfl, rfl, Nat.le_refl _, fun x hx _ _ => ⟨hx, rfl⟩⟩
  | succ fuel ih =>
      intro s os fs b hG hb
      rcases hnb : get_next_block s b with _ | nb
      · have hstep : coalesce_multiple_go req (fuel + 1) s b = s := by
          simp only [coalesce_multiple_go, hnb]
        rw [hstep]
        exact ⟨os, fs, hG, hb, rfl, rfl, rfl, Nat.le_refl _, fun x hx _ _ => ⟨hx, rfl⟩⟩
      · have hstep : coalesce_multiple_go req (fuel + 1) s b =
            if check_free s (some nb) = true ∧ get_payload (s.word b) < req then
              coalesce_multiple_go req fuel (coalesce s b) b
            else s := by
          simp only [coalesce_multiple_go, hnb]
        rw [hstep]
        by_cases hcond : check_free s (some nb) = true ∧ get_payload (s.word b) < req
        · rw [if_pos hcond]
          obtain ⟨osm, fsm, hGm, hbm, hdm, hsm, hwm, hpm, hstab⟩ := coalesce_good hG hb
          obtain ⟨os', fs', hG', hb', hd', hs', hw', hp', hstab'⟩ := ih hGm hbm
          refine ⟨os', fs', hG', hb', ?_, ?_, ?_, ?_, ?_⟩
          · rw [hd', hdm]
          · rw [hs', hsm]
          · rw [hw', hwm]
          · exact Nat.le_trans hpm hp'
          · intro x hx hxb hused
            obtain ⟨hx1, he1⟩ := hstab x hx hxb hused
            obtain ⟨hx2, he2⟩ := hstab' x hx1 hxb (by rw [he1]; exact hused)
            exact ⟨hx2, by rw [he2, he1]⟩
        · rw [if_neg hcond]
          exact ⟨os, fs, hG, hb, rfl, rfl, rfl, Nat.le_refl _, fun x hx _ _ => ⟨hx, rfl⟩⟩

/-! ### Specification of add_block (the splitter) -/

set_option maxHeartbeats 1000000 in
theorem add_block_spec {s : EHeap} {os fs : List Nat} {b req : Nat}
    (hG : Good s os fs) (hb : b ∈ os) (hreq8 : req % 8 = 0)
    (hle : req + ALIGNMENT ≤ get_payload (s.word b)) :
    ∃ os' fs', Good (add_block s b req) os' fs' ∧
      (add_block s b req).word b = req + 1 ∧
      b ∈ os' ∧ (b + req + ALIGNMENT) ∈ os' ∧
      (add_block s b req).word (b + req + ALIGNMENT) % 8 = 0 ∧
      get_payload (s.word b) - req - ALIGNMENT ≤
        get_payload ((add_block s b req).word (b + req + ALIGNMENT)) ∧
      (add_block s b req).data = s.data ∧ (add_block s b req).size = s.size ∧
      (∀ x ∈ os, x ≠ b → s.word x % 8 = 1 →
        x ∈ os' ∧ (add_block s b req).word x = s.word x) := by
  have hA : ALIGNMENT = 8 := rfl
  have hpl8 : get_payload (s.word b) % 8 = 0 := get_payload_mod _
  obtain ⟨l1, l2, hosdec, hbl⟩ := hG.blocks.mem_decomp hb
  have hosnodup : (l1 ++ b :: l2).Nodup := hosdec ▸ hG.blocks.nodup
  obtain ⟨hnl1, hncons, hdisj⟩ := List.nodup_append.mp hosnodup
  have hbl2 : b ∉ l2 := (List.nodup_cons.mp hncons).1
  have hbl1 : b ∉ l1 := fun hm => hdisj hm (by simp)
  have hbnw : b ≠ b + req + ALIGNMENT := by omega
  have hnwos : b + req + ALIGNMENT ∉ os := by
    intro hmem
    have hdisj2 := hG.blocks.disjoint hmem hb (fun he => hbnw he.symm)
    have hplnw := get_payload_mod (s.word (b + req + ALIGNMENT))
    rcases hdisj2 with hd | hd <;> omega
  set W : Nat → Nat := Function.update (Function.update s.word b (req + 1)) (b + req + ALIGNMENT) (get_payload (s.word b) - req - ALIGNMENT) with hW
  set S2 : EHeap := { s with word := W } with hS2
  set S3 : EHeap := if check_free s (some b) = true then remove_freelist S2 b else S2 with hS3def
  set S4 : EHeap := add_freelist S3 (b + req + ALIGNMENT) with hS4def
  have hab : add_block s b req = coalesce S4 (b + req + ALIGNMENT) := rfl
  have hw2b : W b = req + 1 := by
    rw [hW, Function.update_noteq hbnw, Function.update_same]
  have hw2nw : W (b + req + ALIGNMENT) = get_payload (s.word b) - req - ALIGNMENT := by
    rw [hW, Function.update_same]
  have hw2x : ∀ x, x ≠ b → x ≠ b + req + ALIGNMENT → W x = s.word x := by
    intro x hx1 hx2
    rw [hW, Function.update_noteq hx2, Function.update_noteq hx1]
  have hcf_iff : check_free s (some b) = true ↔ s.word b % 8 = 0 := by
    simp [check_free]
  have hS3w : S3.word = W := by
    rw [hS3def]
    split
    · exact (remove_freelist_frame S2 b).1
    · rfl
  have hS3d : S3.data = s.data := by
    rw [hS3def]
    split
    · exact (remove_freelist_frame S2 b).2.1
    · rfl
  have hS3s : S3.size = s.size := by
    rw [hS3def]
    split
    · exact (remove_freelist_frame S2 b).2.2
    · rfl
  have hS4w : S4.word = W := by
    rw [hS4def]
    exact ((add_freelist_frame S3 _).1).trans hS3w
  have hS4d : S4.data = s.data := by
    rw [hS4def]
    exact ((add_freelist_frame S3 _).2.1).trans hS3d
  have hS4s : S4.size = s.size := by
    rw [hS4def]
    exact ((add_freelist_frame S3 _).2.2).trans hS3s
  -- the free list of S3
  have hS3dll : ∃ fs3, DLL S3.prev S3.next none S3.fstart fs3 ∧ b ∉ fs3 ∧
      (∀ x, x ≠ b → (x ∈ fs3 ↔ x ∈ fs)) ∧ fs3 ⊆ fs := by
    by_cases hfr : check_free s (some b) = true
    · have hfree_b : s.word b % 8 = 0 := hcf_iff.mp hfr
      have hbfs : b ∈ fs := (hG.flag b hb).mp hfree_b
      obtain ⟨g1, g2, hfsdec⟩ := List.append_of_mem hbfs
      have hfsnodup : (g1 ++ b :: g2).Nodup := hfsdec ▸ hG.dll.nodup_chain
      obtain ⟨hng1, hngcons, hgdisj⟩ := List.nodup_append.mp hfsnodup
      have hbg2 : b ∉ g2 := (List.nodup_cons.mp hngcons).1
      have hbg1 : b ∉ g1 := fun hm => hgdisj hm (by simp)
      refine ⟨g1 ++ g2, ?_, ?_, ?_, ?_⟩
      · rw [hS3def, if_pos hfr]
        exact remove_freelist_dll (hfsdec ▸ hG.dll)
      · intro hm
        rcases List.mem_append.mp hm with hm | hm
        · exact hbg1 hm
        · exact hbg2 hm
      · intro x hx
        rw [hfsdec]
        simp only [List.mem_append, List.mem_cons]
        constructor
        · tauto
        · intro h
          rcases h with h | h | h
          · tauto
          · exact absurd h hx
          · tauto
      · intro x hm
        rw [hfsdec]
        simp only [List.mem_append, List.mem_cons] at hm ⊢
        tauto
    · have hnfree_b : ¬s.word b % 8 = 0 := fun h => hfr (hcf_iff.mpr h)
      have hbfs : b ∉ fs := fun hm => hnfree_b ((hG.flag b hb).mpr hm)
      refine ⟨fs, ?_, hbfs, fun x _ => Iff.rfl, fun x hx => hx⟩
      rw [hS3def, if_neg hfr]
      exact hG.dll
  obtain ⟨fs3, hdll3, hbfs3, hfs3iff, hfs3sub⟩ := hS3dll
  have hnwfs3 : (b + req + ALIGNMENT) ∉ fs3 := fun hm => hnwos (hG.sub (hfs3sub hm))
  have hdll4 : DLL S4.prev S4.next none S4.fstart ((b + req + ALIGNMENT) :: fs3) := by
    rw [hS4def]
    exact add_freelist_dll hdll3 hnwfs3
  -- the partition of S4
  have hblocks2 : Blocks W s.size 0 (l1 ++ b :: (b + req + ALIGNMENT) :: l2) := by
    refine Blocks.split (hosdec ▸ hG.blocks) hle ?_ ?_ ?_
    · rw [hw2b]
      exact get_payload_add_one hreq8
    · rw [hw2nw]
      exact get_payload_of_even (by omega)
    · intro x hx
      have hxb : x ≠ b := by
        rintro rfl
        rcases List.mem_append.mp hx with hx | hx
        · exact hbl1 hx
        · exact hbl2 hx
      have hxnw : x ≠ b + req + ALIGNMENT := by
        rintro rfl
        refine hnwos ?_
        rw [hosdec]
        simp only [List.mem_append, List.mem_cons] at hx ⊢
        tauto
      rw [hw2x x hxb hxnw]
  have hmemos2 : ∀ x ∈ os, x ∈ l1 ++ b :: (b + req + ALIGNMENT) :: l2 := by
    intro x hx
    rw [hosdec] at hx
    simp only [List.mem_append, List.mem_cons] at hx ⊢
    tauto
  have hG4 : Good S4 (l1 ++ b :: (b + req + ALIGNMENT) :: l2) ((b + req + ALIGNMENT) :: fs3) := by
    refine ⟨?_, hdll4, ?_, ?_, ?_, ?_⟩
    · rw [hS4w, hS4s]
      exact hblocks2
    · intro x hx
      rcases List.mem_cons.mp hx with rfl | hx
      · simp
      · exact hmemos2 x (hG.sub (hfs3sub hx))
    · intro x hx
      rw [hS4w]
      by_cases hxb : x = b
      · subst hxb
        rw [hw2b]
        constructor
        · intro h; omega
        · intro h
          rcases List.mem_cons.mp h with he | hmm
          · exact absurd he hbnw
          · exact absurd hmm hbfs3
      · by_cases hxnw : x = b + req + ALIGNMENT
        · subst hxnw
          rw [hw2nw]
          constructor
          · intro _; exact List.mem_cons_self _ _
          · intro _; omega
        · rw [hw2x x hxb hxnw]
          have hxos : x ∈ os := by
            rw [hosdec]
            simp only [List.mem_append, List.mem_cons] at hx ⊢
            tauto
          rw [hG.flag x hxos, ← hfs3iff x hxb]
          constructor
          · exact fun h => List.mem_cons_of_mem _ h
          · intro h
            rcases List.mem_cons.mp h with he | hmm
            · exact absurd he hxnw
            · exact hmm
    · intro x hx
      rw [hS4w]
      by_cases hxb : x = b
      · subst hxb; rw [hw2b]; omega
      · by_cases hxnw : x = b + req + ALIGNMENT
        · subst hxnw; rw [hw2nw]; omega
        · rw [hw2x x hxb hxnw]
          have hxos : x ∈ os := by
            rw [hosdec]
            simp only [List.mem_append, List.mem_cons] at hx ⊢
            tauto
          exact hG.enc x hxos
    · rw [hS4s]
      exact hG.minsize
  have hnwos2 : (b + req + ALIGNMENT) ∈ l1 ++ b :: (b + req + ALIGNMENT) :: l2 := by simp
  obtain ⟨os', fs', hG', hnw', hd', hs', hwnw', hpnw', hstab'⟩ := coalesce_good hG4 hnwos2
  have hbos2 : b ∈ l1 ++ b :: (b + req + ALIGNMENT) :: l2 := by simp
  have hbused4 : S4.word b % 8 = 1 := by
    rw [hS4w, hw2b]
    omega
  obtain ⟨hbos', hbw'⟩ := hstab' b hbos2 hbnw hbused4
  rw [hab]
  refine ⟨os', fs', hG', ?_, hbos', hnw', ?_, ?_, ?_, ?_, ?_⟩
  · rw [hbw', hS4w, hw2b]
  · rw [hwnw', hS4w, hw2nw]
    omega
  · have : get_payload (S4.word (b + req + ALIGNMENT)) =
        get_payload (s.word b) - req - ALIGNMENT := by
      rw [hS4w, hw2nw]
      exact get_payload_of_even (by omega)
    omega
  · rw [hd', hS4d]
  · rw [hs', hS4s]
  · intro x hx hxb hused
    have hxnw : x ≠ b + req + ALIGNMENT := fun he => hnwos (he ▸ hx)
    have hxused4 : S4.word x % 8 = 1 := by
      rw [hS4w, hw2x x hxb hxnw]
      exact hused
    obtain ⟨hxos', hxw'⟩ := hstab' x (hmemos2 x hx) hxnw hxused4
    refine ⟨hxos', ?_⟩
    rw [hxw', hS4w, hw2x x hxb hxnw]

/-! ### Specification of mymalloc -/

theorem mymalloc_spec {s : EHeap} {os fs : List Nat} (n : Nat) (hG : Good s os fs) :
    ((mymalloc s n).2 = none → (mymalloc s n).1 = s) ∧
    (∀ q, (mymalloc s n).2 = some q →
      ∃ f os' fs', q = f + ALIGNMENT ∧ f ∈ fs ∧ f ∈ os ∧ s.word f % 8 = 0 ∧
        roundup n ALIGNMENT ≤ get_payload (s.word f) ∧
        Good (mymalloc s n).1 os' fs' ∧
        (mymalloc s n).1.data = s.data ∧ (mymalloc s n).1.size = s.size ∧
        f ∈ os' ∧ (mymalloc s n).1.word f % 8 = 1 ∧
        (∀ x ∈ os, s.word x % 8 = 1 →
          x ∈ os' ∧ (mymalloc s n).1.word x = s.word x)) := by
  have hA : ALIGNMENT = 8 := rfl
  rcases hsearch : search_freelist s (roundup n ALIGNMENT) with _ | f
  · have hm : mymalloc s n = (s, none) := by
      simp only [mymalloc, hsearch]
    rw [hm]
    exact ⟨fun _ => rfl, fun q hq => by cases hq⟩
  · obtain ⟨hffs, hffree, hfpay⟩ := search_freelist_sound hG hsearch
    have hfos : f ∈ os := hG.sub hffs
    by_cases hmax : MAX_REQUEST_SIZE < roundup n ALIGNMENT
    · have hm : mymalloc s n = (s, none) := by
        simp only [mymalloc, hsearch]
        rw [if_pos hmax]
      rw [hm]
      exact ⟨fun _ => rfl, fun q hq => by cases hq⟩
    · by_cases hcond : f + get_payload (s.word f) + ALIGNMENT = s.size ∧
          roundup n ALIGNMENT + ALIGNMENT * 3 ≤ get_payload (s.word f)
      · -- tail split
        have hm : mymalloc s n =
            (add_block s f (roundup n ALIGNMENT), some (f + ALIGNMENT)) := by
          simp only [mymalloc, hsearch]
          rw [if_neg hmax, if_pos hcond]
        obtain ⟨os', fs', hG', hwb, hbos', hnwos', hwnw, hpnw, hd', hs', hstab⟩ :=
          add_block_spec hG hfos (roundup_mod n) (by omega)
        rw [hm]
        refine ⟨fun hq => (by cases hq), fun q hq => ?_⟩
        cases hq
        refine ⟨f, os', fs', rfl, hffs, hfos, hffree, hfpay, hG', hd', hs', hbos', ?_, ?_⟩
        · rw [hwb]
          have := roundup_mod n
          omega
        · intro x hx hused
          have hxf : x ≠ f := by
            intro he
            rw [he, hffree] at hused
            cases hused
          exact hstab x hx hxf hused
      · -- take the whole block
        have hm : mymalloc s n =
            (remove_freelist { s with word := Function.update s.word f (s.word f + 1) } f,
              some (f + ALIGNMENT)) := by
          simp only [mymalloc, hsearch]
          rw [if_neg hmax, if_neg hcond]
        obtain ⟨g1, g2, hfsdec⟩ := List.append_of_mem hffs
        have hfsnodup : (g1 ++ f :: g2).Nodup := hfsdec ▸ hG.dll.nodup_chain
        obtain ⟨hng1, hngcons, hgdisj⟩ := List.nodup_append.mp hfsnodup
        have hfg2 : f ∉ g2 := (List.nodup_cons.mp hngcons).1
        have hfg1 : f ∉ g1 := fun hm2 => hgdisj hm2 (by simp)
        have hfr := remove_freelist_frame { s with word := Function.update s.word f (s.word f + 1) } f
        have hweq : (mymalloc s n).1.word = Function.update s.word f (s.word f + 1) := by
          rw [hm]
          exact hfr.1
        have hdeq : (mymalloc s n).1.data = s.data := by
          rw [hm]
          exact hfr.2.1
        have hseq : (mymalloc s n).1.size = s.size := by
          rw [hm]
          exact hfr.2.2
        have hwf : (mymalloc s n).1.word f = s.word f + 1 := by
          rw [hweq, Function.update_same]
        have hwx : ∀ x, x ≠ f → (mymalloc s n).1.word x = s.word x := by
          intro x hx
          rw [hweq]
          exact Function.update_noteq hx _ _
        have hGood : Good (mymalloc s n).1 os (g1 ++ g2) := by
          refine ⟨?_, ?_, ?_, ?_, ?_, ?_⟩
          · rw [hseq]
            refine hG.blocks.congrPayload (fun x hx => ?_)
            by_cases hxf : x = f
            · subst hxf
              rw [hwf, get_payload_add_one hffree, get_payload_of_even hffree]
            · rw [hwx x hxf]
          · rw [hm]
            exact remove_freelist_dll (hfsdec ▸ hG.dll)
          · intro x hx
            refine hG.sub ?_
            rw [hfsdec]
            simp only [List.mem_append, List.mem_cons] at hx ⊢
            tauto
          · intro x hx
            by_cases hxf : x = f
            · subst hxf
              rw [hwf]
              constructor
              · intro h; omega
              · intro h
                rcases List.mem_append.mp h with h | h
                · exact absurd h hfg1
                · exact absurd h hfg2
            · rw [hwx x hxf, hG.flag x hx, hfsdec]
              simp only [List.mem_append, List.mem_cons]
              constructor
              · intro h
                rcases h with h | h | h
                · tauto
                · exact absurd h hxf
                · tauto
              · tauto
          · intro x hx
            by_cases hxf : x = f
            · subst hxf
              rw [hwf]
              omega
            · rw [hwx x hxf]
              exact hG.enc x hx
          · rw [hseq]
            exact hG.minsize
        rw [hm]
        refine ⟨fun hq => (by cases hq), fun q hq => ?_⟩
        cases hq
        rw [← hm]
        refine ⟨f, os, g1 ++ g2, rfl, hffs, hfos, hffree, hfpay, hGood, hdeq, hseq, hfos,
          ?_, ?_⟩
        · rw [hwf]
          omega
        · intro x hx hused
          have hxf : x ≠ f := by
            intro he
            rw [he, hffree] at hused
            cases hused
          exact ⟨hx, hwx x hxf⟩

/-! ### Specification of myfree -/

theorem myfree_spec {s : EHeap} {os fs : List Nat} {ptr : Nat}
    (hG : Good s os fs) (hptr : ALIGNMENT ≤ ptr) (hbos : ptr - ALIGNMENT ∈ os)
    (hused : s.word (ptr - ALIGNMENT) % 8 = 1) :
    ∃ os' fs', Good (myfree s (some ptr)) os' fs' ∧
      (ptr - ALIGNMENT) ∈ os' ∧
      (myfree s (some ptr)).data = s.data ∧ (myfree s (some ptr)).size = s.size ∧
      (myfree s (some ptr)).word (ptr - ALIGNMENT) % 8 = 0 ∧
      get_payload (s.word (ptr - ALIGNMENT)) ≤
        get_payload ((myfree s (some ptr)).word (ptr - ALIGNMENT)) ∧
      (∀ x, x ≠ ptr - ALIGNMENT → (myfree s (some ptr)).word x = s.word x) ∧
      (∀ r, r = (ptr - ALIGNMENT) + get_payload (s.word (ptr - ALIGNMENT)) + ALIGNMENT →
        r ≠ s.size → s.word r % 8 = 0 →
        get_payload ((myfree s (some ptr)).word (ptr - ALIGNMENT))
          = get_payload (s.word (ptr - ALIGNMENT)) + get_payload (s.word r) + ALIGNMENT ∧
        r ∉ os' ∧ r ∉ fs') := by
  have hA : ALIGNMENT = 8 := rfl
  set b := ptr - ALIGNMENT with hbdef
  set s1 : EHeap := { s with word := Function.update s.word b (s.word b - 1) } with hs1
  have hmf : myfree s (some ptr) = coalesce (add_freelist s1 b) b := rfl
  obtain ⟨hps, hps8⟩ := get_payload_sub_one hused
  have hw1b : s1.word b = s.word b - 1 := by
    rw [hs1]
    exact Function.update_same _ _ _
  have hw1x : ∀ x, x ≠ b → s1.word x = s.word x := by
    intro x hx
    rw [hs1]
    exact Function.update_noteq hx _ _
  have hbfs : b ∉ fs := fun hm => by
    have := (hG.flag b hbos).mpr hm
    omega
  have hmid := add_freelist_frame s1 b
  set m : EHeap := add_freelist s1 b with hmdef
  have hmw : m.word = s1.word := hmid.1
  have hmwb : m.word b = s.word b - 1 := by rw [hmw, hw1b]
  have hmwx : ∀ x, x ≠ b → m.word x = s.word x := by
    intro x hx
    rw [hmw]
    exact hw1x x hx
  have hmpayb : get_payload (m.word b) = get_payload (s.word b) := by
    rw [hmwb, ← hps]
  have hGm : Good m os (b :: fs) := by
    refine ⟨?_, ?_, ?_, ?_, ?_, ?_⟩
    · rw [hmid.2.2]
      have : s1.size = s.size := by rw [hs1]
      rw [this]
      refine hG.blocks.congrPayload (fun x hx => ?_)
      by_cases hxb : x = b
      · subst hxb
        rw [hmwb, ← hps]
      · rw [hmwx x hxb]
    · rw [hmdef]
      exact add_freelist_dll hG.dll hbfs
    · intro x hx
      rcases List.mem_cons.mp hx with rfl | hx
      · exact hbos
      · exact hG.sub hx
    · intro x hx
      by_cases hxb : x = b
      · subst hxb
        rw [hmwb]
        constructor
        · intro _; exact List.mem_cons_self _ _
        · intro _; omega
      · rw [hmwx x hxb, hG.flag x hx]
        constructor
        · exact fun h => List.mem_cons_of_mem _ h
        · intro h
          rcases List.mem_cons.mp h with he | h
          · exact absurd he hxb
          · exact h
    · intro x hx
      by_cases hxb : x = b
      · subst hxb
        rw [hmwb]
        omega
      · rw [hmwx x hxb]
        exact hG.enc x hx
    · have : m.size = s.size := by
        rw [hmid.2.2, hs1]
      rw [this]
      exact hG.minsize
  have hmsize : m.size = s.size := by rw [hmid.2.2, hs1]
  rw [hmf]
  rcases coalesce_spec hGm hbos with ⟨heq, hnc⟩ |
    ⟨r, l1, l2, g1, g2, hnbm, hfreem, hreqm, hbrm, hosdec, hfsdec, hword, hdata, hsize,
      hrnos, hrnfs, hGood⟩
  · -- the right neighbour was absent or used: coalesce is the identity
    rw [heq]
    refine ⟨os, b :: fs, hGm, hbos, ?_, ?_, ?_, ?_, ?_, ?_⟩
    · rw [hmid.2.1, hs1]
    · rw [hmsize]
    · rw [hmwb]; omega
    · rw [hmpayb]
    · exact hmwx
    · intro r hr hrsz hrfree
      exfalso
      rcases hnc with hnone | ⟨r', hsome, hodd⟩
      · unfold get_next_block at hnone
        simp only at hnone
        split at hnone
        · rename_i heq2
          rw [hmpayb] at heq2
          rw [hmsize] at heq2
          exact hrsz (by omega)
        · cases hnone
      · unfold get_next_block at hsome
        simp only at hsome
        split at hsome
        · cases hsome
        · rename_i hne2
          cases hsome
          have hrr' : r = b + get_payload (m.word b) + ALIGNMENT := by
            rw [hmpayb]; omega
          have hrb : r ≠ b := by
            have := get_payload_mod (s.word b)
            omega
          rw [← hrr'] at hodd
          rw [hmwx r hrb] at hodd
          exact hodd hrfree
  · -- the right neighbour was free and has been absorbed
    have hrb : r ≠ b := fun he => hbrm he.symm
    have hrs : m.word r = s.word r := hmwx r hrb
    have hreqs : r = b + get_payload (s.word b) + ALIGNMENT := by
      rw [hreqm, hmpayb]
    refine ⟨l1 ++ b :: l2, g1 ++ g2, hGood, by simp, ?_, ?_, ?_, ?_, ?_, ?_⟩
    · rw [hdata, hmid.2.1, hs1]
    · rw [hsize, hmsize]
    · rw [hword, Function.update_same]
      have h8 : (get_payload (m.word r) + ALIGNMENT) % 8 = 0 := by
        have := get_payload_mod (m.word r)
        omega
      have := (@get_payload_add_aligned (m.word b) _ h8).2
      omega
    · rw [hword, Function.update_same]
      have h8 : (get_payload (m.word r) + ALIGNMENT) % 8 = 0 := by
        have := get_payload_mod (m.word r)
        omega
      have := (@get_payload_add_aligned (m.word b) _ h8).1
      omega
    · intro x hx
      rw [hword, Function.update_noteq hx]
      exact hmwx x hx
    · intro r0 hr0 hr0sz hr0free
      have hr0r : r0 = r := by rw [hr0, hreqs]
      subst hr0r
      refine ⟨?_, hrnos, hrnfs⟩
      rw [hword, Function.update_same]
      have h8 : (get_payload (m.word r0) + ALIGNMENT) % 8 = 0 := by
        have := get_payload_mod (m.word r0)
        omega
      have hadd := (@get_payload_add_aligned (m.word b) _ h8).1
      rw [hadd, hmpayb, hrs]
      omega

/-! ### Specification of myrealloc -/

theorem Good.data_update {s : EHeap} {os fs : List Nat} (h : Good s os fs) (d : Nat → Nat) :
    Good { s with data := d } os fs :=
  ⟨h.blocks, h.dll, h.sub, h.flag, h.enc, h.minsize⟩

theorem realloc_tail_split_good {s1 : EHeap} {os1 fs1 : List Nat} {ptr req : Nat}
    (hG : Good s1 os1 fs1) (hptr : ALIGNMENT ≤ ptr) (hb : ptr - ALIGNMENT ∈ os1)
    (hused : s1.word (ptr - ALIGNMENT) % 8 = 1) (hreq8 : req % 8 = 0)
    (hslack : req + ALIGNMENT * 3 < get_payload (s1.word (ptr - ALIGNMENT))) :
    ∃ os' fs',
      Good (add_freelist { s1 with word := Function.update (Function.update s1.word (ptr + req) (get_payload (s1.word (ptr - ALIGNMENT)) - req - ALIGNMENT)) (ptr - ALIGNMENT) (req + 1) } (ptr + req)) os' fs' := by
  have hA : ALIGNMENT = 8 := rfl
  set b := ptr - ALIGNMENT with hbdef
  have hnw_eq : ptr + req = b + req + ALIGNMENT := by omega
  have hpl8 : get_payload (s1.word b) % 8 = 0 := get_payload_mod _
  obtain ⟨l1, l2, hosdec, hbl⟩ := hG.blocks.mem_decomp hb
  have hosnodup : (l1 ++ b :: l2).Nodup := hosdec ▸ hG.blocks.nodup
  obtain ⟨hnl1, hncons, hdisj⟩ := List.nodup_append.mp hosnodup
  have hbl2 : b ∉ l2 := (List.nodup_cons.mp hncons).1
  have hbl1 : b ∉ l1 := fun hm => hdisj hm (by simp)
  have hbnw : b ≠ ptr + req := by omega
  have hnwos : ptr + req ∉ os1 := by
    intro hmem
    have hdisj2 := hG.blocks.disjoint hmem hb (fun he => hbnw he.symm)
    have hplnw := get_payload_mod (s1.word (ptr + req))
    rcases hdisj2 with hd | hd <;> omega
  set W : Nat → Nat := Function.update (Function.update s1.word (ptr + req) (get_payload (s1.word b) - req - ALIGNMENT)) b (req + 1) with hW
  have hWb : W b = req + 1 := by
    rw [hW, Function.update_same]
  have hWnw : W (ptr + req) = get_payload (s1.word b) - req - ALIGNMENT := by
    rw [hW, Function.update_noteq (fun he => hbnw he.symm), Function.update_same]
  have hWx : ∀ x, x ≠ b → x ≠ ptr + req → W x = s1.word x := by
    intro x hx1 hx2
    rw [hW, Function.update_noteq hx1, Function.update_noteq hx2]
  have hbfs : b ∉ fs1 := fun hm => by
    have := (hG.flag b hb).mpr hm
    omega
  have hnwfs : ptr + req ∉ fs1 := fun hm => hnwos (hG.sub hm)
  set S2 : EHeap := { s1 with word := W } with hS2
  have hfr := add_freelist_frame S2 (ptr + req)
  have hSw : (add_freelist S2 (ptr + req)).word = W := hfr.1
  have hSs : (add_freelist S2 (ptr + req)).size = s1.size := hfr.2.2
  refine ⟨l1 ++ b :: (ptr + req) :: l2, (ptr + req) :: fs1, ?_, ?_, ?_, ?_, ?_, ?_⟩
  · -- partition
    rw [hSw, hSs, hnw_eq]
    refine Blocks.split (hosdec ▸ hG.blocks) (by omega) ?_ ?_ ?_
    · rw [hWb]
      exact get_payload_add_one hreq8
    · rw [← hnw_eq, hWnw]
      exact get_payload_of_even (by omega)
    · intro x hx
      have hxb : x ≠ b := by
        rintro rfl
        rcases List.mem_append.mp hx with hx | hx
        · exact hbl1 hx
        · exact hbl2 hx
      have hxnw : x ≠ b + req + ALIGNMENT := by
        rintro rfl
        refine hnwos ?_
        rw [hnw_eq, hosdec]
        simp only [List.mem_append, List.mem_cons] at hx ⊢
        tauto
      rw [hWx x hxb (by omega)]
  · exact add_freelist_dll hG.dll hnwfs
  · intro x hx
    rcases List.mem_cons.mp hx with rfl | hx
    · simp
    · have := hG.sub hx
      rw [hosdec] at this
      simp only [List.mem_append, List.mem_cons] at this ⊢
      tauto
  · intro x hx
    rw [hSw]
    by_cases hxb : x = b
    · subst hxb
      rw [hWb]
      constructor
      · intro h; omega
      · intro h
        rcases List.mem_cons.mp h with he | h
        · exact absurd he hbnw
        · exact absurd h hbfs
    · by_cases hxnw : x = ptr + req
      · subst hxnw
        rw [hWnw]
        constructor
        · intro _; exact List.mem_cons_self _ _
        · intro _
          exact get_payload_mod (s1.word b) ▸ (by omega)
      · rw [hWx x hxb hxnw]
        have hxos : x ∈ os1 := by
          rw [hosdec]
          simp only [List.mem_append, List.mem_cons] at hx ⊢
          tauto
        rw [hG.flag x hxos]
        constructor
        · exact fun h => List.mem_cons_of_mem _ h
        · intro h
          rcases List.mem_cons.mp h with he | h
          · exact absurd he hxnw
          · exact h
  · intro x hx
    rw [hSw]
    by_cases hxb : x = b
    · subst hxb; rw [hWb]; omega
    · by_cases hxnw : x = ptr + req
      · subst hxnw; rw [hWnw]; omega
      · rw [hWx x hxb hxnw]
        have hxos : x ∈ os1 := by
          rw [hosdec]
          simp only [List.mem_append, List.mem_cons] at hx ⊢
          tauto
        exact hG.enc x hxos
  · rw [hSs]
    exact hG.minsize

set_option maxHeartbeats 1000000 in
theorem myrealloc_good {s : EHeap} {os fs : List Nat} {ptr n : Nat}
    (hG : Good s os fs) (hptr : ALIGNMENT ≤ ptr) (hbos : ptr - ALIGNMENT ∈ os)
    (hused : s.word (ptr - ALIGNMENT) % 8 = 1) :
    ∀ {s' : EHeap} {q : Option Nat}, myrealloc s (some ptr) n = .ok s' q →
      ∃ os' fs', Good s' os' fs' := by
  intro s' q h
  have hA : ALIGNMENT = 8 := rfl
  by_cases hn0 : n = 0
  · have hre : myrealloc s (some ptr) n = .ok (myfree s (some ptr)) none := by
      simp only [myrealloc]
      rw [if_pos hn0]
    rw [hre] at h
    cases h
    obtain ⟨os', fs', hG', _⟩ := myfree_spec hG hptr hbos hused
    exact ⟨os', fs', hG'⟩
  · obtain ⟨os1, fs1, hG1, hb1, hd1, hs1, hw1, hp1, hstab1⟩ :=
      @coalesce_multiple_go_good (roundup n ALIGNMENT) s.size s os fs (ptr - ALIGNMENT) hG hbos
    have hcmb : coalesce_multiple_go (roundup n ALIGNMENT) s.size s (ptr - ALIGNMENT)
        = coalesce_multiple_blocks s (ptr - ALIGNMENT) (roundup n ALIGNMENT) := rfl
    rw [hcmb] at hG1 hd1 hs1 hw1 hp1 hstab1
    have hused1 : (coalesce_multiple_blocks s (ptr - ALIGNMENT) (roundup n ALIGNMENT)).word
        (ptr - ALIGNMENT) % 8 = 1 := by
      rw [hw1]
      exact hused
    by_cases hin : roundup n ALIGNMENT ≤ get_payload
        ((coalesce_multiple_blocks s (ptr - ALIGNMENT) (roundup n ALIGNMENT)).word (ptr - ALIGNMENT))
    · -- in place
      by_cases hc1 : get_payload ((coalesce_multiple_blocks s (ptr - ALIGNMENT) (roundup n ALIGNMENT)).word (ptr - ALIGNMENT)) + ptr = (coalesce_multiple_blocks s (ptr - ALIGNMENT) (roundup n ALIGNMENT)).size ∧ roundup n ALIGNMENT + ALIGNMENT * 3 < get_payload ((coalesce_multiple_blocks s (ptr - ALIGNMENT) (roundup n ALIGNMENT)).word (ptr - ALIGNMENT))
      · -- split the tail block
        have hnc2 : ¬(get_payload ((coalesce_multiple_blocks s (ptr - ALIGNMENT) (roundup n ALIGNMENT)).word (ptr - ALIGNMENT)) + ptr ≠ (coalesce_multiple_blocks s (ptr - ALIGNMENT) (roundup n ALIGNMENT)).size ∧ roundup n ALIGNMENT + ALIGNMENT * 3 ≤ get_payload (s.word (ptr - ALIGNMENT))) :=
          fun hc => hc.1 hc1.1
        have hre : myrealloc s (some ptr) n = .ok (add_freelist { coalesce_multiple_blocks s (ptr - ALIGNMENT) (roundup n ALIGNMENT) with word := Function.update (Function.update (coalesce_multiple_blocks s (ptr - ALIGNMENT) (roundup n ALIGNMENT)).word (ptr + roundup n ALIGNMENT) (get_payload ((coalesce_multiple_blocks s (ptr - ALIGNMENT) (roundup n ALIGNMENT)).word (ptr - ALIGNMENT)) - roundup n ALIGNMENT - ALIGNMENT)) (ptr - ALIGNMENT) (roundup n ALIGNMENT + 1) } (ptr + roundup n ALIGNMENT)) (some ptr) := by
          simp only [myrealloc]
          rw [if_neg hn0, if_pos hin, if_pos hc1, if_pos hc1, if_neg hnc2]
        rw [hre] at h
        cases h
        exact realloc_tail_split_good hG1 hptr hb1 hused1 (roundup_mod n) hc1.2
      · by_cases hc2 : get_payload ((coalesce_multiple_blocks s (ptr - ALIGNMENT) (roundup n ALIGNMENT)).word (ptr - ALIGNMENT)) + ptr ≠ (coalesce_multiple_blocks s (ptr - ALIGNMENT) (roundup n ALIGNMENT)).size ∧ roundup n ALIGNMENT + ALIGNMENT * 3 ≤ get_payload (s.word (ptr - ALIGNMENT))
        · -- split an interior block
          have hre : myrealloc s (some ptr) n = .ok (add_block (coalesce_multiple_blocks s (ptr - ALIGNMENT) (roundup n ALIGNMENT)) (ptr - ALIGNMENT) (roundup n ALIGNMENT)) (some ptr) := by
            simp only [myrealloc]
            rw [if_neg hn0, if_pos hin, if_neg hc1, if_neg hc1, if_pos hc2]
          rw [hre] at h
          cases h
          obtain ⟨os', fs', hG', _⟩ :=
            add_block_spec hG1 hb1 (roundup_mod n) (by omega)
          exact ⟨os', fs', hG'⟩
        · -- keep the block whole
          have hre : myrealloc s (some ptr) n = .ok (coalesce_multiple_blocks s (ptr - ALIGNMENT) (roundup n ALIGNMENT)) (some ptr) := by
            simp only [myrealloc]
            rw [if_neg hn0, if_pos hin, if_neg hc1, if_neg hc1, if_neg hc2]
          rw [hre] at h
          cases h
          exact ⟨os1, fs1, hG1⟩
    · -- move the block
      rcases hmal : mymalloc (coalesce_multiple_blocks s (ptr - ALIGNMENT) (roundup n ALIGNMENT)) n with ⟨s2m, res⟩
      cases res with
      | none =>
          have hre : myrealloc s (some ptr) n = .crash := by
            simp only [myrealloc]
            rw [if_neg hn0, if_neg hin, hmal]
          rw [hre] at h
          cases h
      | some q0 =>
          have hre : myrealloc s (some ptr) n = .ok (myfree { s2m with data := memcpyFrom s2m.data q0 ptr (get_payload (s.word (ptr - ALIGNMENT))) } (some ptr)) (some q0) := by
            simp only [myrealloc]
            rw [if_neg hn0, if_neg hin, hmal]
          rw [hre] at h
          cases h
          have hspec := (mymalloc_spec n hG1).2 q0 (by rw [hmal])
          obtain ⟨f, os2, fs2, hq0, hffs, hfos, hff, hfp, hG2a, hd2, hs2, hfos2, hfw2, hstab2⟩ := hspec
          rw [hmal] at hG2a hstab2
          obtain ⟨hbos2, hbw2⟩ := hstab2 (ptr - ALIGNMENT) hb1 hused1
          have hG3 := hG2a.data_update (memcpyFrom s2m.data q0 ptr (get_payload (s.word (ptr - ALIGNMENT))))
          have hused3 : ({ s2m with data := memcpyFrom s2m.data q0 ptr (get_payload (s.word (ptr - ALIGNMENT))) } : EHeap).word (ptr - ALIGNMENT) % 8 = 1 := by
            show s2m.word (ptr - ALIGNMENT) % 8 = 1
            rw [hbw2]
            exact hused1
          obtain ⟨os', fs', hG', _⟩ := myfree_spec hG3 hptr hbos2 hused3
          exact ⟨os', fs', hG'⟩

/-! ### The global invariant of reachable states -/

theorem myinit_good {mem : EHeap} {heap_size : Nat} {s : EHeap}
    (h8 : heap_size % ALIGNMENT = 0) (h : myinit mem heap_size = some s) :
    Good s [0] [0] := by
  have hA : ALIGNMENT = 8 := rfl
  unfold myinit at h
  split at h
  · cases h
  · rename_i hge
    rw [hA] at h8
    rw [hA] at hge
    cases h
    refine ⟨?_, ?_, ?_, ?_, ?_, ?_⟩
    · refine Blocks.cons (by simpa using (by omega : (0 : Nat) < heap_size)) ?_
      have hw0 : Function.update mem.word 0 (heap_size - ALIGNMENT) 0
          = heap_size - ALIGNMENT := Function.update_same _ _ _
      have hpl : get_payload (Function.update mem.word 0 (heap_size - ALIGNMENT) 0)
          = heap_size - 8 := by
        rw [hw0]
        exact get_payload_of_even (by omega)
      have hidx : 0 + get_payload (Function.update mem.word 0 (heap_size - ALIGNMENT) 0)
          + ALIGNMENT = heap_size := by
        rw [hpl]
        omega
      rw [hidx]
      exact Blocks.nil
    · refine DLL.cons ?_ ?_
      · show Function.update mem.prev 0 none 0 = none
        exact Function.update_same _ _ _
      · show DLL _ _ (some 0) (Function.update mem.next 0 none 0) []
        rw [Function.update_same]
        exact DLL.nil
    · exact fun x hx => hx
    · intro b hb
      rcases List.mem_cons.mp hb with rfl | hb
      · show Function.update mem.word 0 (heap_size - ALIGNMENT) 0 % 8 = 0 ↔ 0 ∈ [0]
        rw [Function.update_same]
        simp only [List.mem_singleton]
        constructor
        · intro _; trivial
        · intro _; omega
      · cases hb
    · intro b hb
      rcases List.mem_cons.mp hb with rfl | hb
      · show Function.update mem.word 0 (heap_size - ALIGNMENT) 0 % 8 ≤ 1
        rw [Function.update_same]
        omega
      · cases hb
    · simpa using (by omega : ALIGNMENT * 3 ≤ heap_size)

theorem reachable_good {s : EHeap} (h : Reachable s) : ∃ os fs, Good s os fs := by
  induction h with
  | init mem heap_size s h8 hinit => exact ⟨[0], [0], myinit_good h8 hinit⟩
  | malloc s n hr ih =>
      obtain ⟨os, fs, hG⟩ := ih
      have hspec := mymalloc_spec n hG
      rcases hm2 : (mymalloc s n).2 with _ | q
      · rw [hspec.1 hm2]
        exact ⟨os, fs, hG⟩
      · obtain ⟨f, os', fs', _, _, _, _, _, hG', _⟩ := hspec.2 q hm2
        exact ⟨os', fs', hG'⟩
  | free s p hr hv ih =>
      obtain ⟨os, fs, hG⟩ := ih
      rcases hv with rfl | ⟨ptr, rfl, hvp⟩
      · exact ⟨os, fs, hG⟩
      · obtain ⟨hge, ⟨os0, hB0, hmem0⟩, hused⟩ := hvp
        have hos0 : os0 = os := Blocks.determ hB0 hG.blocks
        obtain ⟨os', fs', hG', _⟩ := myfree_spec hG hge (hos0 ▸ hmem0) hused
        exact ⟨os', fs', hG'⟩
  | realloc s p n s' q hr hv heq ih =>
      obtain ⟨os, fs, hG⟩ := ih
      rcases hv with rfl | ⟨ptr, rfl, hvp⟩
      · have hre : myrealloc s none n = .ok (mymalloc s n).1 (mymalloc s n).2 := rfl
        rw [hre] at heq
        cases heq
        have hspec := mymalloc_spec n hG
        rcases hm2 : (mymalloc s n).2 with _ | q0
        · rw [hspec.1 hm2]
          exact ⟨os, fs, hG⟩
        · obtain ⟨f, os', fs', _, _, _, _, _, hG', _⟩ := hspec.2 q0 hm2
          exact ⟨os', fs', hG'⟩
      · obtain ⟨hge, ⟨os0, hB0, hmem0⟩, hused⟩ := hvp
        exact myrealloc_good hG hge (Blocks.determ hB0 hG.blocks ▸ hmem0) hused heq

/-! ### Claims C1 and C2 -/

/-- C1: Partition invariant of the explicit allocator.  For every state
reachable by a sequence of `myinit` / `mymalloc` / `myfree` / `myrealloc`
calls with valid arguments starting from a successful `myinit`, walking blocks
from `segment_start` (offset 0) by repeatedly advancing
`get_payload + ALIGNMENT` (header size plus payload size) visits a sequence of
blocks that lands exactly on `heap_end` (offset `size`) with no overshoot
(this is what `Blocks _ _ 0 os` asserts: every step stays strictly below
`size`, and the walk ends exactly at `size`), and the per-block sums of
`payload_size + header_size` in address order equal the region size exactly. -/
theorem c1_partition_invariant (s : EHeap) (h : Reachable s) :
    ∃ os : List Nat, Blocks s.word s.size 0 os ∧
      (∀ b ∈ os, b + get_payload (s.word b) + ALIGNMENT ≤ s.size) ∧
      (os.map fun b => get_payload (s.word b) + ALIGNMENT).sum = s.size := by
  obtain ⟨os, fs, hG⟩ := reachable_good h
  refine ⟨os, hG.blocks, ?_, ?_⟩
  · intro b hb
    obtain ⟨l1, l2, _, hbl⟩ := hG.blocks.mem_decomp hb
    obtain ⟨_, hcont⟩ := hbl.cons_inv
    exact hcont.le_size
  · have := hG.blocks.sum_eq
    omega

/-- C2: Free-list membership invariant of the explicit allocator.  In every
state reachable by valid calls, a block's `is_free` flag (low header bits
zero) holds iff the block is reachable from the free-list head (`DLL`
enumerates exactly the nodes visited from `fstart` before hitting `NULL`, so
the traversal terminates, with no cycle, after `fs.length ≤ os.length = N`
steps for `N` the number of blocks), and links are symmetric: `a.next = b`
implies `b.prev = a` for every `a` on the free list. -/
theorem c2_freelist_invariant (s : EHeap) (h : Reachable s) :
    ∃ os fs : List Nat, Blocks s.word s.size 0 os ∧
      DLL s.prev s.next none s.fstart fs ∧
      (∀ b ∈ os, (s.word b % 8 = 0 ↔ b ∈ fs)) ∧
      fs.Nodup ∧ fs.length ≤ os.length ∧
      (∀ a ∈ fs, ∀ b, s.next a = some b → s.prev b = some a) := by
  obtain ⟨os, fs, hG⟩ := reachable_good h
  refine ⟨os, fs, hG.blocks, hG.dll, hG.flag, hG.dll.nodup_chain, ?_, ?_⟩
  · exact (List.subperm_of_subset hG.dll.nodup_chain hG.sub).length_le
  · intro a ha b hab
    exact hG.dll.sym ha hab

/-- Witness for C1: the state after `myinit` of a 64-byte region is reachable
and satisfies the partition invariant. -/
theorem c1_partition_invariant_witness :
    Reachable ((myinit emptyHeap 64).getD emptyHeap) ∧
    (∃ os : List Nat,
      Blocks ((myinit emptyHeap 64).getD emptyHeap).word
        ((myinit emptyHeap 64).getD emptyHeap).size 0 os ∧
      (∀ b ∈ os, b + get_payload (((myinit emptyHeap 64).getD emptyHeap).word b) + ALIGNMENT ≤
        ((myinit emptyHeap 64).getD emptyHeap).size) ∧
      (os.map fun b => get_payload (((myinit emptyHeap 64).getD emptyHeap).word b) + ALIGNMENT).sum
        = ((myinit emptyHeap 64).getD emptyHeap).size) := by
  have hr : Reachable ((myinit emptyHeap 64).getD emptyHeap) :=
    Reachable.init emptyHeap 64 _ (by decide) rfl
  exact ⟨hr, c1_partition_invariant _ hr⟩

/-- Witness for C2: the state after `myinit` of a 64-byte region followed by a
`mymalloc 16` is reachable and satisfies the free-list invariant. -/
theorem c2_freelist_invariant_witness :
    Reachable (mymalloc ((myinit emptyHeap 64).getD emptyHeap) 16).1 ∧
    (∃ os fs : List Nat,
      Blocks (mymalloc ((myinit emptyHeap 64).getD emptyHeap) 16).1.word
        (mymalloc ((myinit emptyHeap 64).getD emptyHeap) 16).1.size 0 os ∧
      DLL (mymalloc ((myinit emptyHeap 64).getD emptyHeap) 16).1.prev
        (mymalloc ((myinit emptyHeap 64).getD emptyHeap) 16).1.next none
        (mymalloc ((myinit emptyHeap 64).getD emptyHeap) 16).1.fstart fs ∧
      (∀ b ∈ os, ((mymalloc ((myinit emptyHeap 64).getD emptyHeap) 16).1.word b % 8 = 0 ↔ b ∈ fs)) ∧
      fs.Nodup ∧ fs.length ≤ os.length ∧
      (∀ a ∈ fs, ∀ b, (mymalloc ((myinit emptyHeap 64).getD emptyHeap) 16).1.next a = some b →
        (mymalloc ((myinit emptyHeap 64).getD emptyHeap) 16).1.prev b = some a)) := by
  have hr : Reachable (mymalloc ((myinit emptyHeap 64).getD emptyHeap) 16).1 :=
    Reachable.malloc _ 16 (Reachable.init emptyHeap 64 _ (by decide) rfl)
  exact ⟨hr, c2_freelist_invariant _ hr⟩

/-! ### Claim C3 -/

/-- Counterexample for C3: the explicit allocator's `mymalloc` has no zero
check.  On a freshly initialised 64-byte heap, `mymalloc 0` rounds the request
up to 16 (the floor in `roundup`), finds the free block and returns the
non-`NULL` pointer 8 — and it mutates the heap: the first header becomes
`17` (a used block of payload 16 produced by the tail split).  The claim says
`mymalloc 0` returns `NULL` and leaves the heap unchanged in both variants. -/
theorem c3_counterexample :
    (mymalloc ((myinit emptyHeap 64).getD emptyHeap) 0).2 = some 8 ∧
    (mymalloc ((myinit emptyHeap 64).getD emptyHeap) 0).2 ≠ none ∧
    (mymalloc ((myinit emptyHeap 64).getD emptyHeap) 0).1.word 0 = 17 ∧
    ((myinit emptyHeap 64).getD emptyHeap).word 0 = 56 := by
  refine ⟨by decide, by decide, by decide, by decide⟩

/-- C3 amended: the implicit variant's `mymalloc` does return `NULL` on a
zero-byte request and leaves the heap unchanged; the explicit variant instead
rounds a zero-byte request up to 16 bytes and behaves exactly like
`mymalloc 16` (so it returns non-`NULL` whenever a 16-byte fit exists). -/
theorem c3_amended :
    (∀ s : IHeap, imymalloc s 0 = (s, none)) ∧
    (∀ s : EHeap, mymalloc s 0 = mymalloc s 16) := by
  have h016 : roundup 0 ALIGNMENT = roundup 16 ALIGNMENT := by decide
  constructor
  · intro s
    simp [imymalloc]
  · intro s
    simp only [mymalloc]
    rw [h016]

/-! ### Claim C4 -/

/-- C4 (the code bug, evaluated): on a 64-byte heap holding one allocated
40-byte block and an empty free list, `myrealloc(p, 100)` cannot be satisfied
in place and the fresh `mymalloc` returns `NULL`; the source then executes
`memcpy(new_ptr, old_ptr, old_size)` with `new_ptr == NULL` (undefined
behaviour) and its own `assert(check != NULL)` fails — modelled as the
`crash` outcome — instead of returning `NULL` with the old block intact as
the claim states. -/
theorem c4_realloc_failure_crashes :
    isCrash (myrealloc (mymalloc ((myinit emptyHeap 64).getD emptyHeap) 40).1 (some 8) 100)
      = true ∧
    (mymalloc ((myinit emptyHeap 64).getD emptyHeap) 40).2 = some 8 ∧
    (mymalloc (mymalloc ((myinit emptyHeap 64).getD emptyHeap) 40).1 100).2 = none := by
  refine ⟨by decide, by decide, by decide⟩

/-! ### Claim C9 -/

/-- Counterexample for C9: the implicit variant's `roundup` has no 16-byte
floor — `roundup(1, 8)` is 8, not at least `2 * unit = 16`.  Moreover the
explicit variant's `roundup` is computed in wrapping `size_t` arithmetic, so
for `sz = 2^64 - 1` it returns 16, which is not the smallest multiple of 8
that is `≥ sz`. -/
theorem c9_counterexample :
    iroundup 1 8 = 8 ∧ ¬16 ≤ iroundup 1 8 ∧
    roundup (2 ^ 64 - 1) 8 = 16 ∧ ¬2 ^ 64 - 1 ≤ roundup (2 ^ 64 - 1) 8 := by
  refine ⟨by decide, by decide, by decide, by decide⟩

/-- C9 amended: for every requested size `sz` whose `size_t` computation does
not wrap (`sz + 7 < 2^64`), the explicit variant's `roundup sz 8` is the
smallest multiple of 8 that is at least `sz` subject to an explicit floor of
16 bytes, and the implicit variant's `roundup` is the smallest multiple of 8
that is at least `sz`, with no floor. -/
theorem c9_roundup_correct (sz : Nat) (h : sz + 7 < 2 ^ 64) :
    (roundup sz 8 % 8 = 0 ∧ sz ≤ roundup sz 8 ∧ 16 ≤ roundup sz 8 ∧
      (∀ m, m % 8 = 0 → sz ≤ m → 16 ≤ m → roundup sz 8 ≤ m)) ∧
    (iroundup sz 8 % 8 = 0 ∧ sz ≤ iroundup sz 8 ∧
      (∀ m, m % 8 = 0 → sz ≤ m → iroundup sz 8 ≤ m)) := by
  have hm : (sz + 8 - 1) % UINT64_LIMIT = sz + 7 := by
    have : sz + 8 - 1 = sz + 7 := by omega
    rw [this]
    exact Nat.mod_eq_of_lt h
  constructor
  · simp only [roundup, hm]
    refine ⟨?_, ?_, ?_, ?_⟩
    · split <;> omega
    · split <;> omega
    · split <;> omega
    · intro m hm8 hszm h16m
      split <;> omega
  · simp only [iroundup, hm]
    refine ⟨by omega, by omega, ?_⟩
    intro m hm8 hszm
    omega

/-- Witness for C9's amended theorem at `sz = 10`. -/
theorem c9_roundup_correct_witness :
    (10 + 7 < 2 ^ 64) ∧
    ((roundup 10 8 % 8 = 0 ∧ 10 ≤ roundup 10 8 ∧ 16 ≤ roundup 10 8 ∧
      (∀ m, m % 8 = 0 → 10 ≤ m → 16 ≤ m → roundup 10 8 ≤ m)) ∧
     (iroundup 10 8 % 8 = 0 ∧ 10 ≤ iroundup 10 8 ∧
      (∀ m, m % 8 = 0 → 10 ≤ m → iroundup 10 8 ≤ m))) :=
  ⟨by decide, c9_roundup_correct 10 (by decide)⟩

/-! ### Claim C10 -/

/-- C10: the implicit variant's `myfree` is flag-only.  For a valid non-null
allocated pointer it subtracts 1 from that block's header word (leaving the
payload bits unchanged and the status free), changes no other header word, no
payload byte and not the region size, and in particular leaves the block
partition exactly as it was — it never merges adjacent free blocks. -/
theorem c10_implicit_free_flag_only (s : IHeap) (os : List Nat) (ptr : Nat)
    (hB : Blocks s.word s.size 0 os) (hptr : ALIGNMENT ≤ ptr)
    (hmem : ptr - ALIGNMENT ∈ os) (hused : s.word (ptr - ALIGNMENT) % 8 = 1) :
    (imyfree s (some ptr)).word (ptr - ALIGNMENT) = s.word (ptr - ALIGNMENT) - 1 ∧
    (imyfree s (some ptr)).word (ptr - ALIGNMENT) % 8 = 0 ∧
    get_payload ((imyfree s (some ptr)).word (ptr - ALIGNMENT))
      = get_payload (s.word (ptr - ALIGNMENT)) ∧
    (∀ x, x ≠ ptr - ALIGNMENT → (imyfree s (some ptr)).word x = s.word x) ∧
    (imyfree s (some ptr)).data = s.data ∧ (imyfree s (some ptr)).size = s.size ∧
    Blocks (imyfree s (some ptr)).word (imyfree s (some ptr)).size 0 os := by
  obtain ⟨hps, hps8⟩ := get_payload_sub_one hused
  have hwb : (imyfree s (some ptr)).word (ptr - ALIGNMENT) = s.word (ptr - ALIGNMENT) - 1 := by
    show Function.update s.word (ptr - ALIGNMENT) (s.word (ptr - ALIGNMENT) - 1) (ptr - ALIGNMENT)
      = s.word (ptr - ALIGNMENT) - 1
    exact Function.update_same _ _ _
  have hwx : ∀ x, x ≠ ptr - ALIGNMENT → (imyfree s (some ptr)).word x = s.word x := by
    intro x hx
    show Function.update s.word (ptr - ALIGNMENT) (s.word (ptr - ALIGNMENT) - 1) x = s.word x
    exact Function.update_noteq hx _ _
  refine ⟨hwb, by rw [hwb]; exact hps8, by rw [hwb, hps], hwx, rfl, rfl, ?_⟩
  refine hB.congrPayload (fun x hx => ?_)
  by_cases hxb : x = ptr - ALIGNMENT
  · subst hxb
    rw [hwb, hps]
  · rw [hwx x hxb]

/-- Witness for C10: a 24-byte implicit heap holding one allocated block. -/
theorem c10_implicit_free_flag_only_witness :
    (Blocks ({ size := 24, word := fun o => if o = 0 then 17 else 0, data := fun _ => 0 } : IHeap).word 24 0 [0] ∧
     ALIGNMENT ≤ 8 ∧ (8 - ALIGNMENT) ∈ [0] ∧
     ({ size := 24, word := fun o => if o = 0 then 17 else 0, data := fun _ => 0 } : IHeap).word (8 - ALIGNMENT) % 8 = 1) ∧
    (imyfree { size := 24, word := fun o => if o = 0 then 17 else 0, data := fun _ => 0 } (some 8)).word (8 - ALIGNMENT)
      = ({ size := 24, word := fun o => if o = 0 then 17 else 0, data := fun _ => 0 } : IHeap).word (8 - ALIGNMENT) - 1 := by
  have hB : Blocks ({ size := 24, word := fun o => if o = 0 then 17 else 0, data := fun _ => 0 } : IHeap).word 24 0 [0] :=
    walkCheck_sound (by decide : walkCheck ({ size := 24, word := fun o => if o = 0 then 17 else 0, data := fun _ => 0 } : IHeap).word 24 24 0 = some [0])
  refine ⟨⟨hB, by decide, by decide, by decide⟩, ?_⟩
  exact (c10_implicit_free_flag_only _ [0] 8 hB (by decide) (by decide) (by decide)).1

/-! ### Claim C6 -/

/-- Counterexample for C6: on a 48-byte heap (single free block of payload
40), `mymalloc 16` rounds to 16; the found block is the last block and its
payload 40 does not *strictly* exceed `request + 3 * ALIGNMENT = 40`, so by
the claim the whole block should be consumed (header would become `41`).
The source instead tests `payload >= request + 3 * ALIGNMENT` and splits:
the first header becomes `17` (used, payload 16) and a new free block of
payload 16 (header `16`) appears at offset 24. -/
theorem c6_counterexample :
    (mymalloc ((myinit emptyHeap 48).getD emptyHeap) 16).2 = some 8 ∧
    get_payload (((myinit emptyHeap 48).getD emptyHeap).word 0) = 40 ∧
    ¬roundup 16 ALIGNMENT + ALIGNMENT * 3 < 40 ∧
    (mymalloc ((myinit emptyHeap 48).getD emptyHeap) 16).1.word 0 = 17 ∧
    (mymalloc ((myinit emptyHeap 48).getD emptyHeap) 16).1.word 0 ≠
      ((myinit emptyHeap 48).getD emptyHeap).word 0 + 1 ∧
    (mymalloc ((myinit emptyHeap 48).getD emptyHeap) 16).1.word 24 = 16 := by
  refine ⟨by decide, by decide, by decide, by decide, by decide, by decide⟩

/-- C6 amended: in the explicit allocator, a successful `mymalloc` splits the
found free block iff that block is the last block in address order AND its
payload is at least (`≥`, not strictly greater than) `request + 3 * ALIGNMENT`
for `request` the rounded size; in every other successful case the whole
found block is marked used (`word + 1`) and removed from the free list.  In
both cases the returned pointer is one header past the found block's start. -/
theorem c6_malloc_split_condition {s : EHeap} {os fs : List Nat} (n : Nat) {q : Nat}
    (hG : Good s os fs) (hq : (mymalloc s n).2 = some q) :
    ∃ f, q = f + ALIGNMENT ∧ f ∈ fs ∧ s.word f % 8 = 0 ∧
      roundup n ALIGNMENT ≤ get_payload (s.word f) ∧
      ((f + get_payload (s.word f) + ALIGNMENT = s.size ∧
          roundup n ALIGNMENT + ALIGNMENT * 3 ≤ get_payload (s.word f)) →
        (mymalloc s n).1.word f = roundup n ALIGNMENT + 1 ∧
        ∃ os' fs', Good (mymalloc s n).1 os' fs' ∧ f ∈ os' ∧
          (f + roundup n ALIGNMENT + ALIGNMENT) ∈ os' ∧
          (mymalloc s n).1.word (f + roundup n ALIGNMENT + ALIGNMENT) % 8 = 0) ∧
      (¬(f + get_payload (s.word f) + ALIGNMENT = s.size ∧
          roundup n ALIGNMENT + ALIGNMENT * 3 ≤ get_payload (s.word f)) →
        (mymalloc s n).1.word f = s.word f + 1 ∧
        (∀ x, x ≠ f → (mymalloc s n).1.word x = s.word x) ∧
        ∃ fs', DLL (mymalloc s n).1.prev (mymalloc s n).1.next none
          (mymalloc s n).1.fstart fs' ∧ f ∉ fs') := by
  have hA : ALIGNMENT = 8 := rfl
  rcases hsearch : search_freelist s (roundup n ALIGNMENT) with _ | f
  · have hm : mymalloc s n = (s, none) := by
      simp only [mymalloc, hsearch]
    rw [hm] at hq
    cases hq
  · obtain ⟨hffs, hffree, hfpay⟩ := search_freelist_sound hG hsearch
    have hfos : f ∈ os := hG.sub hffs
    by_cases hmax : MAX_REQUEST_SIZE < roundup n ALIGNMENT
    · have hm : mymalloc s n = (s, none) := by
        simp only [mymalloc, hsearch]
        rw [if_pos hmax]
      rw [hm] at hq
      cases hq
    · by_cases hcond : f + get_payload (s.word f) + ALIGNMENT = s.size ∧
          roundup n ALIGNMENT + ALIGNMENT * 3 ≤ get_payload (s.word f)
      · have hm : mymalloc s n =
            (add_block s f (roundup n ALIGNMENT), some (f + ALIGNMENT)) := by
          simp only [mymalloc, hsearch]
          rw [if_neg hmax, if_pos hcond]
        rw [hm] at hq
        cases hq
        obtain ⟨os', fs', hG', hwb, hbos', hnwos', hwnw, hpnw, hd', hs', hstab⟩ :=
          add_block_spec hG hfos (roundup_mod n) (by omega)
        refine ⟨f, rfl, hffs, hffree, hfpay, ?_, ?_⟩
        · intro _
          rw [hm]
          exact ⟨hwb, os', fs', hG', hbos', hnwos', hwnw⟩
        · intro hc
          exact absurd hcond hc
      · have hm : mymalloc s n =
            (remove_freelist { s with word := Function.update s.word f (s.word f + 1) } f,
              some (f + ALIGNMENT)) := by
          simp only [mymalloc, hsearch]
          rw [if_neg hmax, if_neg hcond]
        rw [hm] at hq
        cases hq
        obtain ⟨g1, g2, hfsdec⟩ := List.append_of_mem hffs
        have hfsnodup : (g1 ++ f :: g2).Nodup := hfsdec ▸ hG.dll.nodup_chain
        obtain ⟨hng1, hngcons, hgdisj⟩ := List.nodup_append.mp hfsnodup
        have hfg2 : f ∉ g2 := (List.nodup_cons.mp hngcons).1
        have hfg1 : f ∉ g1 := fun hm2 => hgdisj hm2 (by simp)
        have hfr := remove_freelist_frame
          { s with word := Function.update s.word f (s.word f + 1) } f
        refine ⟨f, rfl, hffs, hffree, hfpay, fun hc => absurd hc hcond, fun _ => ?_⟩
        refine ⟨?_, ?_, g1 ++ g2, ?_, ?_⟩
        · rw [hm]
          show (remove_freelist { s with word := Function.update s.word f (s.word f + 1) } f).word f
            = s.word f + 1
          rw [hfr.1]
          exact Function.update_same _ _ _
        · intro x hx
          rw [hm]
          show (remove_freelist { s with word := Function.update s.word f (s.word f + 1) } f).word x
            = s.word x
          rw [hfr.1]
          exact Function.update_noteq hx _ _
        · rw [hm]
          exact remove_freelist_dll (hfsdec ▸ hG.dll)
        · intro hmem
          rcases List.mem_append.mp hmem with hmem | hmem
          · exact hfg1 hmem
          · exact hfg2 hmem

/-- Witness for C6's amended theorem: `mymalloc 16` on the freshly initialised
64-byte heap (which splits the single free block). -/
theorem c6_malloc_split_condition_witness :
    (Good ((myinit emptyHeap 64).getD emptyHeap) [0] [0] ∧
      (mymalloc ((myinit emptyHeap 64).getD emptyHeap) 16).2 = some 8) ∧
    (∃ f, (8 : Nat) = f + ALIGNMENT ∧ f ∈ [0] ∧
      ((myinit emptyHeap 64).getD emptyHeap).word f % 8 = 0 ∧
      roundup 16 ALIGNMENT ≤ get_payload (((myinit emptyHeap 64).getD emptyHeap).word f) ∧
      ((f + get_payload (((myinit emptyHeap 64).getD emptyHeap).word f) + ALIGNMENT = ((myinit emptyHeap 64).getD emptyHeap).size ∧
          roundup 16 ALIGNMENT + ALIGNMENT * 3 ≤ get_payload (((myinit emptyHeap 64).getD emptyHeap).word f)) →
        (mymalloc ((myinit emptyHeap 64).getD emptyHeap) 16).1.word f = roundup 16 ALIGNMENT + 1 ∧
        ∃ os' fs', Good (mymalloc ((myinit emptyHeap 64).getD emptyHeap) 16).1 os' fs' ∧ f ∈ os' ∧
          (f + roundup 16 ALIGNMENT + ALIGNMENT) ∈ os' ∧
          (mymalloc ((myinit emptyHeap 64).getD emptyHeap) 16).1.word (f + roundup 16 ALIGNMENT + ALIGNMENT) % 8 = 0) ∧
      (¬(f + get_payload (((myinit emptyHeap 64).getD emptyHeap).word f) + ALIGNMENT = ((myinit emptyHeap 64).getD emptyHeap).size ∧
          roundup 16 ALIGNMENT + ALIGNMENT * 3 ≤ get_payload (((myinit emptyHeap 64).getD emptyHeap).word f)) →
        (mymalloc ((myinit emptyHeap 64).getD emptyHeap) 16).1.word f = ((myinit emptyHeap 64).getD emptyHeap).word f + 1 ∧
        (∀ x, x ≠ f → (mymalloc ((myinit emptyHeap 64).getD emptyHeap) 16).1.word x = ((myinit emptyHeap 64).getD emptyHeap).word x) ∧
        ∃ fs', DLL (mymalloc ((myinit emptyHeap 64).getD emptyHeap) 16).1.prev
          (mymalloc ((myinit emptyHeap 64).getD emptyHeap) 16).1.next none
          (mymalloc ((myinit emptyHeap 64).getD emptyHeap) 16).1.fstart fs' ∧ f ∉ fs')) := by
  have hG : Good ((myinit emptyHeap 64).getD emptyHeap) [0] [0] :=
    @myinit_good emptyHeap 64 ((myinit emptyHeap 64).getD emptyHeap) (by decide) rfl
  have hq : (mymalloc ((myinit emptyHeap 64).getD emptyHeap) 16).2 = some 8 := by decide
  exact ⟨⟨hG, hq⟩, c6_malloc_split_condition 16 hG hq⟩

/-! ### Claim C7 -/

/-- C7: coalesce on release.  In the explicit allocator, releasing an
allocated block whose immediate right neighbour in address order exists and
is free produces a single free block whose payload is the sum of both
payloads plus one header size; the absorbed neighbour is removed both from
the partition and from the free list, and the merge never goes leftward: the
header word of every other block — in particular every block to the left —
is unchanged. -/
theorem c7_coalesce_on_release {s : EHeap} {os fs : List Nat} {ptr r : Nat}
    (hG : Good s os fs) (hptr : ALIGNMENT ≤ ptr) (hbos : ptr - ALIGNMENT ∈ os)
    (hused : s.word (ptr - ALIGNMENT) % 8 = 1)
    (hr : r = (ptr - ALIGNMENT) + get_payload (s.word (ptr - ALIGNMENT)) + ALIGNMENT)
    (hrsz : r ≠ s.size) (hrfree : s.word r % 8 = 0) :
    get_payload ((myfree s (some ptr)).word (ptr - ALIGNMENT))
      = get_payload (s.word (ptr - ALIGNMENT)) + get_payload (s.word r) + ALIGNMENT ∧
    (myfree s (some ptr)).word (ptr - ALIGNMENT) % 8 = 0 ∧
    (∀ x, x ≠ ptr - ALIGNMENT → (myfree s (some ptr)).word x = s.word x) ∧
    ∃ os' fs', Good (myfree s (some ptr)) os' fs' ∧ (ptr - ALIGNMENT) ∈ os' ∧
      r ∉ os' ∧ r ∉ fs' := by
  obtain ⟨os', fs', hG', hbos', hd', hs', hw0', hple', hframe', hmerge'⟩ :=
    myfree_spec hG hptr hbos hused
  obtain ⟨hpsum, hros', hrfs'⟩ := hmerge' r hr hrsz hrfree
  exact ⟨hpsum, hw0', hframe', os', fs', hG', hbos', hros', hrfs'⟩

/-- Witness for C7: a 104-byte heap with blocks `[used 16, free 24, used 40]`;
releasing the first block absorbs the middle free block. -/
theorem c7_coalesce_on_release_witness :
    (Good { size := 104, word := fun o => if o = 0 then 17 else if o = 24 then 24 else if o = 56 then 41 else 0, prev := fun _ => none, next := fun _ => none, fstart := some 24, data := fun _ => 0 } [0, 24, 56] [24] ∧
      ALIGNMENT ≤ 8 ∧ (8 - ALIGNMENT : Nat) ∈ [0, 24, 56] ∧
      (24 : Nat) = (8 - ALIGNMENT) + get_payload 17 + ALIGNMENT ∧ (24 : Nat) ≠ 104 ∧ (24 : Nat) % 8 = 0) ∧
    get_payload ((myfree { size := 104, word := fun o => if o = 0 then 17 else if o = 24 then 24 else if o = 56 then 41 else 0, prev := fun _ => none, next := fun _ => none, fstart := some 24, data := fun _ => 0 } (some 8)).word (8 - ALIGNMENT))
      = get_payload 17 + get_payload 24 + ALIGNMENT := by
  have hB : Blocks (fun o => if o = 0 then 17 else if o = 24 then 24 else if o = 56 then 41 else 0) 104 0 [0, 24, 56] :=
    walkCheck_sound (by decide :
      walkCheck (fun o => if o = 0 then 17 else if o = 24 then 24 else if o = 56 then 41 else 0) 104 20 0 = some [0, 24, 56])
  have hD : DLL (fun _ => none) (fun _ => none) none (some 24) [24] :=
    chainCheck_sound (by decide :
      chainCheck (fun _ => (none : Option Nat)) (fun _ => none) 5 none (some 24) = some [24])
  have hG : Good { size := 104, word := fun o => if o = 0 then 17 else if o = 24 then 24 else if o = 56 then 41 else 0, prev := fun _ => none, next := fun _ => none, fstart := some 24, data := fun _ => 0 } [0, 24, 56] [24] := by
    refine ⟨hB, hD, ?_, ?_, ?_, ?_⟩
    · decide
    · decide
    · decide
    · decide
  have hc := @c7_coalesce_on_release _ _ _ 8 24 hG (by decide) (by decide) (by decide)
    (by decide) (by decide) (by decide)
  exact ⟨⟨hG, by decide, by decide, by decide, by decide, by decide⟩, hc.1⟩

/-! ### Claim C8 -/

/-- Counterexample for C8: heap of 104 bytes with blocks
`[used 16, free 40, used 24]` and free list `[24]`.  `myrealloc(8, 24)`
(request rounds to 24) coalesces the block at 0 with its free neighbour,
reaching a current payload of 64; the block is not the tail block and the
current payload 64 is at least `request + 3 * ALIGNMENT = 48`, so by the
claim the block should be split (its header would become `24 + 1 = 25`).
The source instead tests the stale pre-coalesce `old_size = 16` and does not
split: the returned block keeps header `65` (used, payload 64). -/
theorem c8_counterexample :
    roundup 24 ALIGNMENT = 24 ∧
    reallocPtr (myrealloc { size := 104, word := fun o => if o = 0 then 17 else if o = 24 then 40 else if o = 72 then 25 else 0, prev := fun _ => none, next := fun _ => none, fstart := some 24, data := fun _ => 0 } (some 8) 24) = some 8 ∧
    get_payload ((coalesce_multiple_blocks { size := 104, word := fun o => if o = 0 then 17 else if o = 24 then 40 else if o = 72 then 25 else 0, prev := fun _ => none, next := fun _ => none, fstart := some 24, data := fun _ => 0 } 0 24).word 0) = 64 ∧
    24 + ALIGNMENT * 3 ≤ 64 ∧
    (64 + 8 : Nat) ≠ 104 ∧
    (reallocHeap (myrealloc { size := 104, word := fun o => if o = 0 then 17 else if o = 24 then 40 else if o = 72 then 25 else 0, prev := fun _ => none, next := fun _ => none, fstart := some 24, data := fun _ => 0 } (some 8) 24) emptyHeap).word 0 = 65 ∧
    (reallocHeap (myrealloc { size := 104, word := fun o => if o = 0 then 17 else if o = 24 then 40 else if o = 72 then 25 else 0, prev := fun _ => none, next := fun _ => none, fstart := some 24, data := fun _ => 0 } (some 8) 24) emptyHeap).word 0 ≠ 24 + 1 := by
  refine ⟨by decide, by decide, by decide, by decide, by decide, by decide, by decide⟩

/-- C8 amended: when `myrealloc(p, n)` with a valid allocated `p` and
`n > 0` can be satisfied in place (after the forward coalesce loop the
payload is at least the rounded request) and the block is not the tail
block, the source splits iff the *stale pre-coalesce* payload `old_size`
is at least `request + 3 * ALIGNMENT` (not the current payload as the
claim states).  Since that threshold makes the coalesce loop a no-op, the
split happens exactly when no coalescing was needed and the payload meets
the threshold; in either case the original pointer is returned unchanged. -/
theorem c8_inplace_split_condition {s : EHeap} {os fs : List Nat} {ptr : Nat} (n : Nat)
    (hG : Good s os fs) (hptr : ALIGNMENT ≤ ptr) (hbos : ptr - ALIGNMENT ∈ os)
    (hused : s.word (ptr - ALIGNMENT) % 8 = 1) (hn0 : n ≠ 0)
    (hin : roundup n ALIGNMENT ≤ get_payload
      ((coalesce_multiple_blocks s (ptr - ALIGNMENT) (roundup n ALIGNMENT)).word (ptr - ALIGNMENT)))
    (hnottail : get_payload ((coalesce_multiple_blocks s (ptr - ALIGNMENT) (roundup n ALIGNMENT)).word (ptr - ALIGNMENT)) + ptr
      ≠ (coalesce_multiple_blocks s (ptr - ALIGNMENT) (roundup n ALIGNMENT)).size) :
    ∃ s', myrealloc s (some ptr) n = .ok s' (some ptr) ∧
      (roundup n ALIGNMENT + ALIGNMENT * 3 ≤ get_payload (s.word (ptr - ALIGNMENT)) →
        s' = add_block s (ptr - ALIGNMENT) (roundup n ALIGNMENT) ∧
        s'.word (ptr - ALIGNMENT) = roundup n ALIGNMENT + 1 ∧
        ∃ os' fs', Good s' os' fs' ∧ (ptr - ALIGNMENT) ∈ os' ∧
          ((ptr - ALIGNMENT) + roundup n ALIGNMENT + ALIGNMENT) ∈ os' ∧
          s'.word ((ptr - ALIGNMENT) + roundup n ALIGNMENT + ALIGNMENT) % 8 = 0) ∧
      (get_payload (s.word (ptr - ALIGNMENT)) < roundup n ALIGNMENT + ALIGNMENT * 3 →
        s' = coalesce_multiple_blocks s (ptr - ALIGNMENT) (roundup n ALIGNMENT) ∧
        s'.word (ptr - ALIGNMENT) % 8 = 1) := by
  have hA : ALIGNMENT = 8 := rfl
  have hnc1 : ¬(get_payload ((coalesce_multiple_blocks s (ptr - ALIGNMENT) (roundup n ALIGNMENT)).word (ptr - ALIGNMENT)) + ptr = (coalesce_multiple_blocks s (ptr - ALIGNMENT) (roundup n ALIGNMENT)).size ∧ roundup n ALIGNMENT + ALIGNMENT * 3 < get_payload ((coalesce_multiple_blocks s (ptr - ALIGNMENT) (roundup n ALIGNMENT)).word (ptr - ALIGNMENT))) :=
    fun hc => hnottail hc.1
  by_cases hsplit : roundup n ALIGNMENT + ALIGNMENT * 3 ≤ get_payload (s.word (ptr - ALIGNMENT))
  · have hc2 : get_payload ((coalesce_multiple_blocks s (ptr - ALIGNMENT) (roundup n ALIGNMENT)).word (ptr - ALIGNMENT)) + ptr ≠ (coalesce_multiple_blocks s (ptr - ALIGNMENT) (roundup n ALIGNMENT)).size ∧ roundup n ALIGNMENT + ALIGNMENT * 3 ≤ get_payload (s.word (ptr - ALIGNMENT)) :=
      ⟨hnottail, hsplit⟩
    have hre : myrealloc s (some ptr) n = .ok (add_block (coalesce_multiple_blocks s (ptr - ALIGNMENT) (roundup n ALIGNMENT)) (ptr - ALIGNMENT) (roundup n ALIGNMENT)) (some ptr) := by
      simp only [myrealloc]
      rw [if_neg hn0, if_pos hin, if_neg hnc1, if_neg hnc1, if_pos hc2]
    have hid : coalesce_multiple_blocks s (ptr - ALIGNMENT) (roundup n ALIGNMENT) = s := by
      unfold coalesce_multiple_blocks
      exact coalesce_multiple_go_id (by omega)
    rw [hid] at hre
    obtain ⟨os', fs', hG', hwb, hbos', hnwos', hwnw, hpnw, hd', hs', hstab⟩ :=
      add_block_spec hG hbos (roundup_mod n) (by omega)
    refine ⟨add_block s (ptr - ALIGNMENT) (roundup n ALIGNMENT), hre, ?_, ?_⟩
    · intro _
      exact ⟨rfl, hwb, os', fs', hG', hbos', hnwos', hwnw⟩
    · intro hc
      omega
  · have hnc2 : ¬(get_payload ((coalesce_multiple_blocks s (ptr - ALIGNMENT) (roundup n ALIGNMENT)).word (ptr - ALIGNMENT)) + ptr ≠ (coalesce_multiple_blocks s (ptr - ALIGNMENT) (roundup n ALIGNMENT)).size ∧ roundup n ALIGNMENT + ALIGNMENT * 3 ≤ get_payload (s.word (ptr - ALIGNMENT))) :=
      fun hc => hsplit hc.2
    have hre : myrealloc s (some ptr) n = .ok (coalesce_multiple_blocks s (ptr - ALIGNMENT) (roundup n ALIGNMENT)) (some ptr) := by
      simp only [myrealloc]
      rw [if_neg hn0, if_pos hin, if_neg hnc1, if_neg hnc1, if_neg hnc2]
    obtain ⟨os1, fs1, hG1, hb1, hd1, hs1, hw1, hp1, hstab1⟩ :=
      @coalesce_multiple_go_good (roundup n ALIGNMENT) s.size s os fs (ptr - ALIGNMENT) hG hbos
    refine ⟨coalesce_multiple_blocks s (ptr - ALIGNMENT) (roundup n ALIGNMENT), hre, ?_, ?_⟩
    · intro hc
      omega
    · intro _
      refine ⟨rfl, ?_⟩
      show (coalesce_multiple_go (roundup n ALIGNMENT) s.size s (ptr - ALIGNMENT)).word (ptr - ALIGNMENT) % 8 = 1
      rw [hw1]
      exact hused

/-- Witness for C8: heap of 104 bytes with blocks `[used 64, used 24]` and an
empty free list.  `myrealloc(8, 24)` finds the current payload 64 already
sufficient (the coalesce loop is a no-op), the block is not the tail block,
and the stale payload 64 is at least `24 + 3 * ALIGNMENT = 48`, so the
interior split fires and the header at 0 becomes `24 + 1 = 25`. -/
theorem c8_inplace_split_condition_witness :
    (Good { size := 104, word := fun o => if o = 0 then 65 else if o = 72 then 25 else 0, prev := fun _ => none, next := fun _ => none, fstart := none, data := fun _ => 0 } [0, 72] [] ∧
      ALIGNMENT ≤ 8 ∧ ((8 - ALIGNMENT : Nat) ∈ [0, 72]) ∧
      (if (8 - ALIGNMENT : Nat) = 0 then 65 else if (8 - ALIGNMENT : Nat) = 72 then 25 else 0) % 8 = 1 ∧
      (24 : Nat) ≠ 0) ∧
    (reallocHeap (myrealloc { size := 104, word := fun o => if o = 0 then 65 else if o = 72 then 25 else 0, prev := fun _ => none, next := fun _ => none, fstart := none, data := fun _ => 0 } (some 8) 24) emptyHeap).word (8 - ALIGNMENT) = roundup 24 ALIGNMENT + 1 := by
  have hB : Blocks (fun o => if o = 0 then 65 else if o = 72 then 25 else 0) 104 0 [0, 72] :=
    walkCheck_sound (by decide :
      walkCheck (fun o => if o = 0 then 65 else if o = 72 then 25 else 0) 104 20 0 = some [0, 72])
  have hD : DLL (fun _ => (none : Option Nat)) (fun _ => none) none none ([] : List Nat) :=
    chainCheck_sound (by decide :
      chainCheck (fun _ => (none : Option Nat)) (fun _ => none) 5 none none = some [])
  have hG : Good { size := 104, word := fun o => if o = 0 then 65 else if o = 72 then 25 else 0, prev := fun _ => none, next := fun _ => none, fstart := none, data := fun _ => 0 } [0, 72] [] := by
    refine ⟨hB, hD, ?_, ?_, ?_, ?_⟩
    · decide
    · decide
    · decide
    · decide
  obtain ⟨s', hre, hyes, _⟩ := @c8_inplace_split_condition _ _ _ 8 24 hG (by decide) (by decide)
    (by decide) (by decide) (by decide) (by decide)
  obtain ⟨_, hw, _⟩ := hyes (by decide)
  refine ⟨⟨hG, by decide, by decide, by decide, by decide⟩, ?_⟩
  rw [hre]
  exact hw

/-! ### The observable effect of `memcpy` -/

/-- Bytes below the destination are untouched by the forward copy. -/
theorem memcpyFrom_frame_lt :
    ∀ (n : Nat) (d : Nat → Nat) (dst src x : Nat), x < dst →
      memcpyFrom d dst src n x = d x := by
  intro n
  induction n with
  | zero => intro d dst src x _; rfl
  | succ n ih =>
      intro d dst src x hx
      show memcpyFrom (Function.update d dst (d src)) (dst + 1) (src + 1) n x = d x
      rw [ih _ _ _ _ (by omega)]
      exact Function.update_noteq (by omega) _ _

/-- Per-index correctness of the forward byte copy: byte `i` of the
destination receives the original byte `i` of the source, provided the source
position was not clobbered by an earlier write of the same (possibly
overlapping) copy — which holds when the destination lies at or before the
source, or the source position is strictly below the destination range. -/
theorem memcpyFrom_get :
    ∀ (n : Nat) (d : Nat → Nat) (dst src i : Nat), i < n →
      (dst ≤ src ∨ src + i < dst) →
      memcpyFrom d dst src n (dst + i) = d (src + i) := by
  intro n
  induction n with
  | zero => intro d dst src i hi _; exact absurd hi (Nat.not_lt_zero i)
  | succ n ih =>
      intro d dst src i hi hcond
      show memcpyFrom (Function.update d dst (d src)) (dst + 1) (src + 1) n (dst + i) = d (src + i)
      cases i with
      | zero =>
          rw [memcpyFrom_frame_lt n _ _ _ _ (by omega)]
          simp [Function.update_same]
      | succ j =>
          have h1 : dst + (j + 1) = (dst + 1) + j := by omega
          rw [h1, ih (Function.update d dst (d src)) (dst + 1) (src + 1) j (by omega) (by omega)]
          have h2 : (src + 1) + j = src + (j + 1) := by omega
          rw [h2]
          exact Function.update_noteq (by omega) _ _

/-- `myfree` never touches payload bytes. -/
theorem myfree_data (s : EHeap) (p : Nat) : (myfree s (some p)).data = s.data := by
  show (coalesce (add_freelist { s with word := Function.update s.word (p - ALIGNMENT) (s.word (p - ALIGNMENT) - 1) } (p - ALIGNMENT)) (p - ALIGNMENT)).data = s.data
  rw [(coalesce_frame _ _).1, (add_freelist_frame _ _).2.1]

/-- The implicit `myfree` never touches payload bytes. -/
theorem imyfree_data (s : IHeap) (p : Nat) : (imyfree s (some p)).data = s.data := rfl

/-- Success of the implicit allocation scan: a returned pointer is one header
past some block of the partition that was free in the pre-state, and the scan
never touches payload bytes. -/
theorem imymalloc_go_spec :
    ∀ {fuel : Nat} {s : IHeap} {request idx : Nat} {os : List Nat},
      Blocks s.word s.size idx os →
      ∀ q, (imymalloc_go s request fuel idx).2 = some q →
      ∃ f, f ∈ os ∧ q = f + ALIGNMENT ∧ s.word f % 8 = 0 ∧
        (imymalloc_go s request fuel idx).1.data = s.data := by
  intro fuel
  induction fuel with
  | zero =>
      intro s request idx os hB q hq
      exact Option.noConfusion (show (none : Option Nat) = some q from hq)
  | succ fuel ih =>
      intro s request idx os hB q hq
      by_cases hidx : idx = s.size
      · have hstep : imymalloc_go s request (fuel + 1) idx = (s, none) := by
          simp only [imymalloc_go]; rw [if_pos hidx]
        rw [hstep] at hq
        exact Option.noConfusion (show (none : Option Nat) = some q from hq)
      · cases hB with
        | nil => exact absurd rfl hidx
        | @cons _ os2 hlt htail =>
            by_cases hlast : idx + get_payload (s.word idx) + ALIGNMENT = s.size
            · by_cases hfl : (s.word idx % 8 == 0) = false ∨ get_payload (s.word idx) < request
              · have hstep : imymalloc_go s request (fuel + 1) idx = (s, none) := by
                  simp only [imymalloc_go]; rw [if_neg hidx, if_pos hlast, if_pos hfl]
                rw [hstep] at hq
                exact Option.noConfusion (show (none : Option Nat) = some q from hq)
              · have hfree : s.word idx % 8 = 0 := by
                  rcases Bool.eq_false_or_eq_true (s.word idx % 8 == 0) with hb | hb
                  · simpa using hb
                  · exact absurd (Or.inl hb) hfl
                by_cases hsp : (s.word idx % 8 == 0) = true ∧ request + ALIGNMENT * 2 ≤ get_payload (s.word idx)
                · have hstep : imymalloc_go s request (fuel + 1) idx =
                      ({ s with word := Function.update (Function.update s.word idx (request + 1)) (idx + request + ALIGNMENT) (get_payload (s.word idx) - request - ALIGNMENT) }, some (idx + ALIGNMENT)) := by
                    simp only [imymalloc_go]; rw [if_neg hidx, if_pos hlast, if_neg hfl, if_pos hsp]
                  rw [hstep] at hq ⊢
                  have hq' : some (idx + ALIGNMENT) = some q := hq
                  injection hq' with hq'
                  exact ⟨idx, List.mem_cons_self _ _, hq'.symm, hfree, rfl⟩
                · have hstep : imymalloc_go s request (fuel + 1) idx =
                      ({ s with word := Function.update s.word idx (request + 1) }, some (idx + ALIGNMENT)) := by
                    simp only [imymalloc_go]; rw [if_neg hidx, if_pos hlast, if_neg hfl, if_neg hsp]
                  rw [hstep] at hq ⊢
                  have hq' : some (idx + ALIGNMENT) = some q := hq
                  injection hq' with hq'
                  exact ⟨idx, List.mem_cons_self _ _, hq'.symm, hfree, rfl⟩
            · by_cases hfit : (s.word idx % 8 == 0) = true ∧ request ≤ get_payload (s.word idx)
              · have hfree : s.word idx % 8 = 0 := by simpa using hfit.1
                have hstep : imymalloc_go s request (fuel + 1) idx =
                    ({ s with word := Function.update s.word idx (s.word idx + 1) }, some (idx + ALIGNMENT)) := by
                  simp only [imymalloc_go]; rw [if_neg hidx, if_neg hlast, if_pos hfit]
                rw [hstep] at hq ⊢
                have hq' : some (idx + ALIGNMENT) = some q := hq
                injection hq' with hq'
                exact ⟨idx, List.mem_cons_self _ _, hq'.symm, hfree, rfl⟩
              · have hstep : imymalloc_go s request (fuel + 1) idx =
                    imymalloc_go s request fuel (idx + get_payload (s.word idx) + ALIGNMENT) := by
                  simp only [imymalloc_go]; rw [if_neg hidx, if_neg hlast, if_neg hfit]
                rw [hstep] at hq ⊢
                obtain ⟨f, hfos, hqf, hffree, hdata⟩ := ih htail q hq
                exact ⟨f, List.mem_cons_of_mem _ hfos, hqf, hffree, hdata⟩

/-- C5: round-trip data preservation.  For both variants, whenever
`myrealloc(p, n)` on a valid allocated pointer `p` of a well-formed heap
returns normally with a pointer `q` different from `p`, the first
`min(old_payload, n)` payload bytes previously written at `p` are found
unchanged at `q`.  (Explicit variant: the copy path copies the stale
`old_size = old_payload` bytes; implicit variant: it copies `n` bytes; in
both cases the copied prefix covers `min(old_payload, n)` and the source
block is disjoint from the fresh destination block, so the forward
byte-by-byte `memcpy` is faithful on that prefix.) -/
theorem c5_roundtrip_preservation :
    (∀ (s : EHeap) (os fs : List Nat) (p n : Nat) (s' : EHeap) (q : Nat),
      Good s os fs → ALIGNMENT ≤ p → p - ALIGNMENT ∈ os →
      s.word (p - ALIGNMENT) % 8 = 1 →
      myrealloc s (some p) n = .ok s' (some q) → q ≠ p →
      ∀ i, i < min (get_payload (s.word (p - ALIGNMENT))) n →
        s'.data (q + i) = s.data (p + i)) ∧
    (∀ (s : IHeap) (os : List Nat) (p n : Nat) (s' : IHeap) (q : Nat),
      Blocks s.word s.size 0 os → ALIGNMENT ≤ p → p - ALIGNMENT ∈ os →
      s.word (p - ALIGNMENT) % 8 = 1 →
      imyrealloc s (some p) n = .ok s' (some q) → q ≠ p →
      ∀ i, i < min (get_payload (s.word (p - ALIGNMENT))) n →
        s'.data (q + i) = s.data (p + i)) := by
  have hA : ALIGNMENT = 8 := rfl
  constructor
  · intro s os fs p n s' q hG hp hbos hused hre hqp i hi
    by_cases hn0 : n = 0
    · have hstep : myrealloc s (some p) n = .ok (myfree s (some p)) none := by
        simp only [myrealloc]; rw [if_pos hn0]
      rw [hstep] at hre
      injection hre with h1 h2
      exact Option.noConfusion h2
    · by_cases hin : roundup n ALIGNMENT ≤ get_payload
          ((coalesce_multiple_blocks s (p - ALIGNMENT) (roundup n ALIGNMENT)).word (p - ALIGNMENT))
      · obtain ⟨X, hstep⟩ : ∃ X, myrealloc s (some p) n = .ok X (some p) := by
          simp only [myrealloc]; rw [if_neg hn0, if_pos hin]; exact ⟨_, rfl⟩
        rw [hstep] at hre
        injection hre with h1 h2
        injection h2 with h2
        exact absurd h2.symm hqp
      · rcases hmal : mymalloc (coalesce_multiple_blocks s (p - ALIGNMENT) (roundup n ALIGNMENT)) n with ⟨s2, p2⟩
        rcases p2 with _ | new_ptr
        · have hstep : myrealloc s (some p) n = .crash := by
            simp only [myrealloc]; rw [if_neg hn0, if_neg hin, hmal]
          rw [hstep] at hre
          exact ReallocResult.noConfusion hre
        · have hstep : myrealloc s (some p) n =
              .ok (myfree { s2 with data := memcpyFrom s2.data new_ptr p (get_payload (s.word (p - ALIGNMENT))) } (some p)) (some new_ptr) := by
            simp only [myrealloc]; rw [if_neg hn0, if_neg hin, hmal]
          rw [hstep] at hre
          injection hre with h1 h2
          injection h2 with h2
          subst h2
          subst h1
          have hcmb : coalesce_multiple_go (roundup n ALIGNMENT) s.size s (p - ALIGNMENT)
              = coalesce_multiple_blocks s (p - ALIGNMENT) (roundup n ALIGNMENT) := rfl
          obtain ⟨os1, fs1, hG1, hb1, hd1, hs1, hw1, hp1, hstab1⟩ :=
            @coalesce_multiple_go_good (roundup n ALIGNMENT) s.size s os fs (p - ALIGNMENT) hG hbos
          rw [hcmb] at hG1 hd1 hs1 hw1 hp1
          obtain ⟨f, os2, fs2, hqf, hffs, hfos, hffree, hfpay, hG2, hd2, hsz2, hfos2, hfused, hstab2⟩ :=
            (mymalloc_spec n hG1).2 new_ptr (by rw [hmal])
          have hm1 : (mymalloc (coalesce_multiple_blocks s (p - ALIGNMENT) (roundup n ALIGNMENT)) n).1 = s2 := by
            rw [hmal]
          rw [hm1] at hd2
          have hfo : f ≠ p - ALIGNMENT := by
            intro he
            rw [he, hw1] at hffree
            omega
          have hdisj := hG1.blocks.disjoint hfos hb1 hfo
          rw [myfree_data]
          show memcpyFrom s2.data new_ptr p (get_payload (s.word (p - ALIGNMENT))) (new_ptr + i)
            = s.data (p + i)
          rw [memcpyFrom_get _ s2.data new_ptr p i (by omega) (by rw [hqf]; omega)]
          rw [hd2, hd1]
  · intro s os p n s' q hB hp hbos hused hre hqp i hi
    by_cases hn0 : n = 0
    · have hstep : imyrealloc s (some p) n = .ok (imyfree s (some p)) none := by
        simp only [imyrealloc]; rw [if_pos hn0]
      rw [hstep] at hre
      injection hre with h1 h2
      exact Option.noConfusion h2
    · rcases hmal : imymalloc s n with ⟨s2, p2⟩
      rcases p2 with _ | new_ptr
      · have hstep : imyrealloc s (some p) n = .crash := by
          simp only [imyrealloc]; rw [if_neg hn0, hmal]
        rw [hstep] at hre
        exact IReallocResult.noConfusion hre
      · have hstep : imyrealloc s (some p) n =
            .ok (imyfree { s2 with data := memcpyFrom s2.data new_ptr p n } (some p)) (some new_ptr) := by
          simp only [imyrealloc]; rw [if_neg hn0, hmal]
        rw [hstep] at hre
        injection hre with h1 h2
        injection h2 with h2
        subst h2
        subst h1
        have hmal' : imymalloc_go s (iroundup n ALIGNMENT) (s.size + 1) 0 = (s2, some new_ptr) := by
          have hu : imymalloc s n = imymalloc_go s (iroundup n ALIGNMENT) (s.size + 1) 0 := by
            simp only [imymalloc]; rw [if_neg hn0]
          rw [← hu, hmal]
        obtain ⟨f, hfos, hqf, hffree, hdata⟩ :=
          imymalloc_go_spec hB new_ptr (by rw [hmal'])
        rw [hmal'] at hdata
        have hfo : f ≠ p - ALIGNMENT := by
          intro he
          rw [he] at hffree
          omega
        have hdisj := hB.disjoint hfos hbos hfo
        rw [imyfree_data]
        show memcpyFrom s2.data new_ptr p n (new_ptr + i) = s.data (p + i)
        rw [memcpyFrom_get n s2.data new_ptr p i (by omega) (by rw [hqf]; omega)]
        show s2.data (p + i) = s.data (p + i)
        rw [hdata]

/-- Witness for C5.  Explicit: heap of 128 bytes with blocks
`[free 40, used 16, used 48]`, payload bytes initialised to their own
addresses; `myrealloc(56, 24)` cannot grow in place (right neighbour used),
moves the block into the free block at 0 and returns pointer 8, and the 16
old payload bytes reappear at the new location.  Implicit: heap of 104 bytes
with blocks `[free 40, used 16, used 24]`; `myrealloc(56, 8)` moves to
pointer 8 preserving `min(16, 8) = 8` bytes. -/
theorem c5_roundtrip_preservation_witness :
    ((Good { size := 128, word := fun o => if o = 0 then 40 else if o = 48 then 17 else if o = 72 then 49 else 0, prev := fun _ => none, next := fun _ => none, fstart := some 0, data := fun i => i } [0, 48, 72] [0] ∧
        ALIGNMENT ≤ 56 ∧ ((56 - ALIGNMENT : Nat) ∈ [0, 48, 72]) ∧
        (if (56 - ALIGNMENT : Nat) = 0 then 40 else if (56 - ALIGNMENT : Nat) = 48 then 17 else if (56 - ALIGNMENT : Nat) = 72 then 49 else 0) % 8 = 1 ∧ (8 : Nat) ≠ 56) ∧
      ∀ i, i < 16 →
        (reallocHeap (myrealloc { size := 128, word := fun o => if o = 0 then 40 else if o = 48 then 17 else if o = 72 then 49 else 0, prev := fun _ => none, next := fun _ => none, fstart := some 0, data := fun i => i } (some 56) 24) emptyHeap).data (8 + i) = 56 + i) ∧
    ((Blocks (fun o => if o = 0 then 40 else if o = 48 then 17 else if o = 72 then 25 else 0) 104 0 [0, 48, 72] ∧
        ALIGNMENT ≤ 56 ∧ ((56 - ALIGNMENT : Nat) ∈ [0, 48, 72]) ∧
        (if (56 - ALIGNMENT : Nat) = 0 then 40 else if (56 - ALIGNMENT : Nat) = 48 then 17 else if (56 - ALIGNMENT : Nat) = 72 then 25 else 0) % 8 = 1 ∧ (8 : Nat) ≠ 56) ∧
      ∀ i, i < 8 →
        (ireallocHeap (imyrealloc { size := 104, word := fun o => if o = 0 then 40 else if o = 48 then 17 else if o = 72 then 25 else 0, data := fun i => i } (some 56) 8) iEmptyHeap).data (8 + i) = 56 + i) := by
  have hBE : Blocks (fun o => if o = 0 then 40 else if o = 48 then 17 else if o = 72 then 49 else 0) 128 0 [0, 48, 72] :=
    walkCheck_sound (by decide :
      walkCheck (fun o => if o = 0 then 40 else if o = 48 then 17 else if o = 72 then 49 else 0) 128 20 0 = some [0, 48, 72])
  have hD : DLL (fun _ => (none : Option Nat)) (fun _ => none) none (some 0) [0] :=
    chainCheck_sound (by decide :
      chainCheck (fun _ => (none : Option Nat)) (fun _ => none) 5 none (some 0) = some [0])
  have hG : Good { size := 128, word := fun o => if o = 0 then 40 else if o = 48 then 17 else if o = 72 then 49 else 0, prev := fun _ => none, next := fun _ => none, fstart := some 0, data := fun i => i } [0, 48, 72] [0] := by
    refine ⟨hBE, hD, ?_, ?_, ?_, ?_⟩
    · decide
    · decide
    · decide
    · decide
  have hBI : Blocks (fun o => if o = 0 then 40 else if o = 48 then 17 else if o = 72 then 25 else 0) 104 0 [0, 48, 72] :=
    walkCheck_sound (by decide :
      walkCheck (fun o => if o = 0 then 40 else if o = 48 then 17 else if o = 72 then 25 else 0) 104 20 0 = some [0, 48, 72])
  refine ⟨⟨⟨hG, by decide, by decide, by decide, by decide⟩, ?_⟩,
    ⟨⟨hBI, by decide, by decide, by decide, by decide⟩, ?_⟩⟩
  · rcases hr : myrealloc { size := 128, word := fun o => if o = 0 then 40 else if o = 48 then 17 else if o = 72 then 49 else 0, prev := fun _ => none, next := fun _ => none, fstart := some 0, data := fun i => i } (some 56) 24 with _ | ⟨s', qq⟩
    · have hcr : isCrash (myrealloc { size := 128, word := fun o => if o = 0 then 40 else if o = 48 then 17 else if o = 72 then 49 else 0, prev := fun _ => none, next := fun _ => none, fstart := some 0, data := fun i => i } (some 56) 24) = false := by decide
      rw [hr] at hcr
      exact Bool.noConfusion hcr
    · have hq : qq = some 8 := by
        have h2 : reallocPtr (myrealloc { size := 128, word := fun o => if o = 0 then 40 else if o = 48 then 17 else if o = 72 then 49 else 0, prev := fun _ => none, next := fun _ => none, fstart := some 0, data := fun i => i } (some 56) 24) = some 8 := by decide
        rw [hr] at h2
        exact h2
      subst hq
      intro i hi
      have hmin : min (get_payload (({ size := 128, word := fun o => if o = 0 then 40 else if o = 48 then 17 else if o = 72 then 49 else 0, prev := fun _ => none, next := fun _ => none, fstart := some 0, data := fun i => i } : EHeap).word (56 - ALIGNMENT))) 24 = 16 := by decide
      have hval := c5_roundtrip_preservation.1
        { size := 128, word := fun o => if o = 0 then 40 else if o = 48 then 17 else if o = 72 then 49 else 0, prev := fun _ => none, next := fun _ => none, fstart := some 0, data := fun i => i }
        [0, 48, 72] [0] 56 24 s' 8 hG (by decide) (by decide) (by decide) hr (by decide) i (by omega)
      exact hval
  · rcases hr : imyrealloc { size := 104, word := fun o => if o = 0 then 40 else if o = 48 then 17 else if o = 72 then 25 else 0, data := fun i => i } (some 56) 8 with _ | ⟨s', qq⟩
    · have hcr : iIsCrash (imyrealloc { size := 104, word := fun o => if o = 0 then 40 else if o = 48 then 17 else if o = 72 then 25 else 0, data := fun i => i } (some 56) 8) = false := by decide
      rw [hr] at hcr
      exact Bool.noConfusion hcr
    · have hq : qq = some 8 := by
        have h2 : ireallocPtr (imyrealloc { size := 104, word := fun o => if o = 0 then 40 else if o = 48 then 17 else if o = 72 then 25 else 0, data := fun i => i } (some 56) 8) = some 8 := by decide
        rw [hr] at h2
        exact h2
      subst hq
      intro i hi
      have hmin : min (get_payload (({ size := 104, word := fun o => if o = 0 then 40 else if o = 48 then 17 else if o = 72 then 25 else 0, data := fun i => i } : IHeap).word (56 - ALIGNMENT))) 8 = 8 := by decide
      have hval := c5_roundtrip_preservation.2
        { size := 104, word := fun o => if o = 0 then 40 else if o = 48 then 17 else if o = 72 then 25 else 0, data := fun i => i }
        [0, 48, 72] 56 8 s' 8 hBI (by decide) (by decide) (by decide) hr (by decide) i (by omega)
      exact hval
